import Mathlib

/-!
Verification of the kmol preprocessing core against its specification.

This file gives a shallow embedding, in Lean 4, of the parts of the kmol
repository that the specification's testable claims are about:

* `AbstractPreprocessor._get_chunks` and `_run_parrallel`
  (src/src/kmol/data/preprocessor.py),
* `CachePreprocessor._prepare_chunk` and `FilePreprocessor._load_dataset`
  (src/src/kmol/data/preprocessor.py),
* `CacheManager._sort` / `CacheManager.key` (src/lib/core/helpers.py),
* `SuperFactory.find_descendants` / `SuperFactory.create`
  (src/lib/core/helpers.py).

Python `dict`s are embedded as association lists with distinct keys, machine
integers as `Nat`/`Int`, fallible code as `Option`/`Except`, and the in-place
mutation performed by `SuperFactory.create` as explicit state passing over a
heap of dictionary objects.
-/

set_option maxHeartbeats 1000000
set_option maxRecDepth 100000

/-! ## Chunking: `AbstractPreprocessor._get_chunks` -/

/-- Embeds `AbstractPreprocessor._get_chunks` (src/src/kmol/data/preprocessor.py:71-78).
`S` is `len(dataset)` and `W` is `self._config.featurization_jobs`.  The Python code
computes `chunk_size = len(dataset) // n_jobs` and then takes the slices
`range_list[i * chunk_size : (i + 1) * chunk_size]` for
`i in range((len(dataset) + chunk_size - 1) // chunk_size)`.  A Python slice
`xs[a : a + c]` is `(xs.drop a).take c`.  When `chunk_size` is `0` the ceiling
division raises `ZeroDivisionError`; that failure is embedded as `none`. -/
def getChunks (S W : Nat) : Option (List (List Nat)) :=
  let chunkSize := S / W
  if chunkSize = 0 then none
  else
    some ((List.range ((S + chunkSize - 1) / chunkSize)).map
      (fun i => ((List.range S).drop (i * chunkSize)).take chunkSize))

/-- Concatenating the successive slices of width `c` recovers the original list,
provided the number of slices is the ceiling of `length / c`. -/
theorem flatten_slices (c : Nat) (hc : 0 < c) :
    ∀ (m : Nat) (L : List Nat), (L.length + c - 1) / c = m →
      ((List.range m).map (fun i => (L.drop (i * c)).take c)).flatten = L := by
  intro m
  induction m with
  | zero =>
    intro L hm
    have h0 : L.length + c - 1 < c := (Nat.div_eq_zero_iff hc).mp hm
    have hL : L = [] := List.eq_nil_of_length_eq_zero (by omega)
    subst hL
    simp
  | succ m ih =>
    intro L hm
    have hlen1 : 1 ≤ L.length := by
      rcases Nat.eq_zero_or_pos L.length with h0 | h1
      · exfalso
        rw [h0] at hm
        rw [Nat.div_eq_of_lt (by omega)] at hm
        omega
      · exact h1
    have hrec : ((L.drop c).length + c - 1) / c = m := by
      rw [List.length_drop]
      rcases Nat.le_total L.length c with hle | hge
      · have hz : L.length - c = 0 := by omega
        rw [hz]
        have h1 : (L.length + c - 1) / c = 1 := by
          rw [show L.length + c - 1 = (L.length - 1) + c by omega,
            Nat.add_div_right _ hc, Nat.div_eq_of_lt (by omega)]
        rw [Nat.div_eq_of_lt (by omega)]
        omega
      · have hkey : (L.length + c - 1) / c = (L.length - 1) / c + 1 := by
          rw [show L.length + c - 1 = (L.length - 1) + c by omega,
            Nat.add_div_right _ hc]
        rw [show L.length - c + c - 1 = L.length - 1 by omega]
        omega
    have hfun : ((fun i => (L.drop (i * c)).take c) ∘ Nat.succ)
        = fun i => (((L.drop c).drop (i * c)).take c) := by
      funext i
      simp only [Function.comp_apply]
      rw [List.drop_drop, Nat.succ_mul, Nat.add_comm (i * c) c]
    rw [List.range_succ_eq_map]
    simp only [List.map_cons, List.flatten_cons, Nat.zero_mul, List.drop_zero,
      List.map_map]
    rw [hfun, ih (L.drop c) hrec, List.take_append_drop]

/-- C2 (amended): for `1 ≤ W ≤ S`, `_get_chunks` produces contiguous index slices
whose concatenation is exactly `[0, S)` in order — no overlap, no gap, each index
exactly once.  (For `S < W` the function raises `ZeroDivisionError`, see
`c2_counterexample`.) -/
theorem c2_chunks_partition (S W : Nat) (hW : 1 ≤ W) (hS : W ≤ S) :
    ∃ cs, getChunks S W = some cs ∧ cs.flatten = List.range S := by
  have hc : 0 < S / W := (Nat.one_le_div_iff (by omega)).mpr hS
  have heq : getChunks S W = some ((List.range ((S + S / W - 1) / (S / W))).map
      (fun i => ((List.range S).drop (i * (S / W))).take (S / W))) := by
    unfold getChunks
    simp only []
    rw [if_neg (by omega)]
  refine ⟨_, heq, ?_⟩
  exact flatten_slices (S / W) hc _ (List.range S) (by rw [List.length_range])

/-- Witness for `c2_chunks_partition` at `S = 10`, `W = 4`. -/
theorem c2_chunks_partition_witness :
    ∃ cs, getChunks 10 4 = some cs ∧ cs.flatten = List.range 10 :=
  c2_chunks_partition 10 4 (by decide) (by decide)

/-- C2 counterexample: with `S = 1 ≥ 1` and `W = 2 ≥ 1`, `chunk_size` is
`1 // 2 = 0` and `_get_chunks` raises `ZeroDivisionError` instead of producing a
partition of `[0, 1)`, refuting the claim as stated for all `S ≥ 1, W ≥ 1`. -/
theorem c2_counterexample :
    getChunks 1 2 = none ∧
      ¬ ∃ cs, getChunks 1 2 = some cs ∧ cs.flatten = List.range 1 := by
  refine ⟨by decide, ?_⟩
  rintro ⟨cs, hcs, -⟩
  have h0 : getChunks 1 2 = none := by decide
  rw [h0] at hcs
  exact Option.noConfusion hcs

/-- C6 (amended): for `1 ≤ W ≤ S` the dataset is split into contiguous
index-range chunks, but their count is `⌈S / (S // W)⌉` — equal to the configured
worker count `W` only when `W` divides `S` — and every chunk has exactly
`S // W` indices except a possibly *smaller* final chunk: the last chunk never
absorbs the remainder of an uneven division; extra chunks are created instead. -/
theorem c6_chunk_count (S W : Nat) (hW : 1 ≤ W) (hS : W ≤ S) :
    ∃ cs, getChunks S W = some cs ∧
      cs.length = (S + S / W - 1) / (S / W) ∧
      ∀ i, (h : i < cs.length) →
        (cs.get ⟨i, h⟩).length = min (S / W) (S - i * (S / W)) := by
  have hc : 0 < S / W := (Nat.one_le_div_iff (by omega)).mpr hS
  have heq : getChunks S W = some ((List.range ((S + S / W - 1) / (S / W))).map
      (fun i => ((List.range S).drop (i * (S / W))).take (S / W))) := by
    unfold getChunks
    simp only []
    rw [if_neg (by omega)]
  refine ⟨_, heq, ?_, ?_⟩
  · simp [List.length_map, List.length_range]
  · intro i h
    simp only [List.length_map, List.length_range] at h
    simp [List.get_eq_getElem, List.getElem_map, List.getElem_range,
      List.length_take, List.length_drop, List.length_range]

/-- Witness for `c6_chunk_count` at `S = 10`, `W = 4`. -/
theorem c6_chunk_count_witness :
    ∃ cs, getChunks 10 4 = some cs ∧
      cs.length = (10 + 10 / 4 - 1) / (10 / 4) ∧
      ∀ i, (h : i < cs.length) →
        (cs.get ⟨i, h⟩).length = min (10 / 4) (10 - i * (10 / 4)) :=
  c6_chunk_count 10 4 (by decide) (by decide)

/-- C6 counterexample: for a dataset of `S = 10` samples and `W = 4` configured
workers, `_get_chunks` produces `5` chunks of `2` indices each, not `4` chunks —
the chunk count does not equal the configured worker count and the last chunk
does not absorb the remainder. -/
theorem c6_counterexample :
    getChunks 10 4 = some [[0, 1], [2, 3], [4, 5], [6, 7], [8, 9]] ∧
      ([[0, 1], [2, 3], [4, 5], [6, 7], [8, 9]] : List (List Nat)).length ≠ 4 := by
  constructor
  · decide
  · decide

/-! ## Substring containment (used to state what a log line references) -/

/-- `chPre needle hay` is true when `needle` is an initial segment of `hay`. -/
def chPre : List Char → List Char → Bool
  | [], _ => true
  | _ :: _, [] => false
  | a :: as, b :: bs => a == b && chPre as bs

/-- `chSub needle hay` is true when `needle` occurs contiguously in `hay`. -/
def chSub (needle : List Char) : List Char → Bool
  | [] => needle.isEmpty
  | b :: bs => chPre needle (b :: bs) || chSub needle bs

/-- `strContains hay needle` is true when `needle` is a substring of `hay`. -/
def strContains (hay needle : String) : Bool :=
  chSub needle.data hay.data

theorem chPre_append (needle hay ys : List Char) (h : chPre needle hay = true) :
    chPre needle (hay ++ ys) = true := by
  induction needle generalizing hay with
  | nil => rfl
  | cons a as ih =>
    cases hay with
    | nil => exact absurd h (by simp [chPre])
    | cons b bs =>
      simp only [chPre, List.cons_append, Bool.and_eq_true] at h ⊢
      exact ⟨h.1, ih bs h.2⟩

theorem chSub_append_left (needle hay ys : List Char) (h : chSub needle hay = true) :
    chSub needle (hay ++ ys) = true := by
  induction hay with
  | nil =>
    simp only [chSub, List.isEmpty_iff] at h
    subst h
    cases ys with
    | nil => rfl
    | cons c cs => simp [chSub, chPre]
  | cons b bs ih =>
    simp only [chSub, Bool.or_eq_true] at h ⊢
    rcases h with h | h
    · exact Or.inl (chPre_append _ _ _ h)
    · exact Or.inr (ih h)

theorem strContains_append_left (a b x : String) (h : strContains a x = true) :
    strContains (a ++ b) x = true := by
  unfold strContains at h ⊢
  rw [String.data_append]
  exact chSub_append_left _ _ _ h

/-! ## Samples, transform outcomes and log entries -/

/-- A `DataPoint` as consumed by the per-sample transform chain: a unique
identifier `id_` and a mapping of named input fields.  Field values are kept as
strings: their structure is irrelevant to the claims under proof. -/
structure Sample where
  id : Nat
  inputs : List (String × String)
deriving DecidableEq

/-- Python `d[k]` / `k in d` on a string-keyed dict, as an association-list
lookup (dict keys are unique, so the first match is the match). -/
def dictLookupS : List (String × String) → String → Option String
  | [], _ => none
  | (k, v) :: t, key => if k = key then some v else dictLookupS t key

/-- `sample.inputs["smiles"] if "smiles" in sample.inputs else ""`
(src/src/kmol/data/preprocessor.py:258 and :348). -/
def smilesOf (s : Sample) : String :=
  (dictLookupS s.inputs "smiles").getD ""

/-- Modelled from the spec: the display form of a `DataPoint` (defined in
src/kmol/data/resources.py, which is not under src/) includes its unique
identifier, so the `f"{sample} ..."` log lines carry the input identifier. -/
def sampleRepr (s : Sample) : String :=
  "DataPoint(id_=" ++ toString s.id ++ ")"

/-- Outcome of running the transform chain `preprocess` (every featurizer's
`run`, then every transformer's `apply`, src/src/kmol/data/preprocessor.py:49-60)
on one sample: success with the transformed sample, a raised
`FeaturizationError` carrying (message, formatted traceback), or any other
exception carrying (message, formatted traceback).  The chain is configuration
dependent, so it enters the embedding as a function `Sample → TResult`. -/
inductive TResult where
  | ok : Sample → TResult
  | featErr : String → String → TResult
  | otherErr : String → String → TResult
deriving DecidableEq

/-- Whether the transform outcome is a success. -/
def TResult.isOk : TResult → Bool
  | .ok _ => true
  | _ => false

/-- Whether the transform outcome is a `FeaturizationError`. -/
def TResult.isFeat : TResult → Bool
  | .featErr _ _ => true
  | _ => false

/-- The message of a `FeaturizationError` outcome (`""` otherwise). -/
def TResult.featMsg : TResult → String
  | .featErr m _ => m
  | _ => ""

/-- The transformed sample of a successful outcome, `none` otherwise; a chunk's
output dataset is the `filterMap` of this over the chunk. -/
def okOf (step : Sample → TResult) (s : Sample) : Option Sample :=
  match step s with
  | .ok s2 => some s2
  | _ => none

/-- One emitted log line, tagged with its severity. -/
inductive LogEntry where
  | warn : String → LogEntry
  | err : String → LogEntry
  | debug : String → LogEntry
deriving DecidableEq

/-- Whether a log entry was emitted at warning severity. -/
def LogEntry.isWarn : LogEntry → Bool
  | .warn _ => true
  | _ => false

/-- Whether a log entry was emitted at error severity. -/
def LogEntry.isErr : LogEntry → Bool
  | .err _ => true
  | _ => false

/-- The text of a log entry. -/
def LogEntry.msg : LogEntry → String
  | .warn m => m
  | .err m => m
  | .debug m => m

/-! ## `CachePreprocessor._prepare_chunk` -/

/-- Embeds `CachePreprocessor._prepare_chunk` (src/src/kmol/data/preprocessor.py:255-273),
omitting the shared progress-map writes (display only).  For each sample of the
chunk, in order: on success the transformed sample is appended to the output
dataset; on `FeaturizationError e` the warning `f"{e}\n{tb_str}"` is logged and
the sample is dropped; on any other exception `e` the error
`f"{sample} {smiles} - {e}\n{tb_str}"` is logged and the sample is dropped.
Processing always continues with the next sample. -/
def CachePreprocessor.prepareChunk (step : Sample → TResult) :
    List Sample → List Sample × List LogEntry
  | [] => ([], [])
  | s :: rest =>
    let smiles := smilesOf s
    let tail := CachePreprocessor.prepareChunk step rest
    match step s with
    | .ok s2 => (s2 :: tail.1, tail.2)
    | .featErr m tb => (tail.1, .warn (m ++ "\n" ++ tb) :: tail.2)
    | .otherErr m tb =>
        (tail.1,
          .err (sampleRepr s ++ " " ++ smiles ++ " - " ++ m ++ "\n" ++ tb) :: tail.2)

/-- C4: in `CachePreprocessor._prepare_chunk`, a `FeaturizationError` for a
sample is logged as a warning containing the exception message and the captured
traceback — hence, by the spec's contract on `FeaturizationError` messages, the
original input identifier — the sample is dropped from the output, and
processing continues: the output dataset is exactly the successful transforms,
in order, and there is one warning per recoverable failure. -/
theorem c4_recoverable_skip (step : Sample → TResult) (chunk : List Sample)
    (hid : ∀ s ∈ chunk, (step s).isFeat = true →
      strContains (step s).featMsg (toString s.id) = true) :
    (CachePreprocessor.prepareChunk step chunk).1 = chunk.filterMap (okOf step) ∧
      ((CachePreprocessor.prepareChunk step chunk).2.countP LogEntry.isWarn) =
        chunk.countP (fun s => (step s).isFeat) ∧
      ∀ s ∈ chunk, ∀ m tb, step s = .featErr m tb →
        LogEntry.warn (m ++ "\n" ++ tb) ∈ (CachePreprocessor.prepareChunk step chunk).2 ∧
          strContains (m ++ "\n" ++ tb) (toString s.id) = true := by
  induction chunk with
  | nil => exact ⟨rfl, rfl, by intro s hs; exact absurd hs (List.not_mem_nil s)⟩
  | cons s rest ih =>
    have hid' : ∀ t ∈ rest, (step t).isFeat = true →
        strContains (step t).featMsg (toString t.id) = true := by
      intro t ht
      exact hid t (List.mem_cons_of_mem s ht)
    obtain ⟨ih1, ih2, ih3⟩ := ih hid'
    refine ⟨?_, ?_, ?_⟩
    · simp only [CachePreprocessor.prepareChunk, List.filterMap_cons, okOf]
      cases hstep : step s with
      | ok s2 => simp [hstep, ih1]
      | featErr m tb => simp [hstep, ih1]
      | otherErr m tb => simp [hstep, ih1]
    · simp only [CachePreprocessor.prepareChunk, List.countP_cons]
      cases hstep : step s with
      | ok s2 => simp [hstep, TResult.isFeat, ih2]
      | featErr m tb =>
        simp [hstep, TResult.isFeat, List.countP_cons, LogEntry.isWarn, ih2]
      | otherErr m tb =>
        simp [hstep, TResult.isFeat, List.countP_cons, LogEntry.isWarn, ih2]
    · intro t ht m tb hstept
      rcases List.mem_cons.mp ht with rfl | ht'
      · have hmsg : strContains m (toString t.id) = true := by
          have := hid t (List.mem_cons_self t rest) (by rw [hstept]; rfl)
          rw [hstept] at this
          exact this
        constructor
        · simp only [CachePreprocessor.prepareChunk, hstept]
          cases hstep2 : step t <;> simp_all
        · have : (m ++ "\n" ++ tb) = m ++ ("\n" ++ tb) := by
            rw [String.append_assoc]
          rw [this]
          exact strContains_append_left m ("\n" ++ tb) (toString t.id) hmsg
      · obtain ⟨hmem, hsub⟩ := ih3 t ht' m tb hstept
        refine ⟨?_, hsub⟩
        simp only [CachePreprocessor.prepareChunk]
        cases hstep : step s <;> simp [hmem]

/-- Scenario dataset for the C4 witness: 10 samples with identifiers 0..9. -/
def sc4Samples : List Sample :=
  (List.range 10).map (fun i => Sample.mk i [])

/-- Scenario transform chain for the C4 witness: the samples at indices 3 and 7
raise a recoverable `FeaturizationError` whose message names the input
identifier; every other sample succeeds unchanged. -/
def sc4Step (s : Sample) : TResult :=
  if s.id = 3 ∨ s.id = 7 then
    .featErr ("Featurization failed for sample " ++ toString s.id) "Traceback (most recent call last)"
  else
    .ok s

/-- Witness for `c4_recoverable_skip`: a dataset of 10 samples with recoverable
failures at indices 3 and 7 yields an output dataset of exactly 8 samples and
exactly two warning log entries, each referencing the failed input identifier. -/
theorem c4_recoverable_skip_witness :
    ((CachePreprocessor.prepareChunk sc4Step sc4Samples).1 =
        sc4Samples.filterMap (okOf sc4Step) ∧
      ((CachePreprocessor.prepareChunk sc4Step sc4Samples).2.countP LogEntry.isWarn) =
        sc4Samples.countP (fun s => (sc4Step s).isFeat) ∧
      ∀ s ∈ sc4Samples, ∀ m tb, sc4Step s = .featErr m tb →
        LogEntry.warn (m ++ "\n" ++ tb) ∈ (CachePreprocessor.prepareChunk sc4Step sc4Samples).2 ∧
          strContains (m ++ "\n" ++ tb) (toString s.id) = true) ∧
      (CachePreprocessor.prepareChunk sc4Step sc4Samples).1.length = 8 ∧
      ((CachePreprocessor.prepareChunk sc4Step sc4Samples).2.countP LogEntry.isWarn) = 2 :=
  ⟨c4_recoverable_skip sc4Step sc4Samples (by decide), by decide, by decide⟩

/-! ## `AbstractPreprocessor._run_parrallel`: chunked runs and merge order -/

/-- In-memory merge policy of `_run_parrallel` (src/src/kmol/data/preprocessor.py:114):
`list(itertools.chain.from_iterable([future.result() for future in futures]))` —
the per-chunk outputs are concatenated in chunk submission order. -/
def mergeMemory (results : List (List Sample)) : List Sample :=
  results.flatten

/-- Disk-backed merge policy of `_run_parrallel` (src/src/kmol/data/preprocessor.py:102-112):
take the first chunk's `CacheDiskList` and `extend` it with each subsequent
chunk output in submission order; the consumed lists are then cleared, which
does not affect the merged contents. -/
def mergeDisk (results : List (List Sample)) : List Sample :=
  match results with
  | [] => []
  | d :: rest => rest.foldl (fun acc dl => acc ++ dl) d

/-- A `torch.utils.data.Subset(dataset, chunk)` view
(src/src/kmol/data/preprocessor.py:78): the dataset's samples at the chunk's
indices, in index order. -/
def subsetOf (dataset : List Sample) (idxs : List Nat) : List Sample :=
  idxs.filterMap (fun i => dataset[i]?)

/-- Embeds `AbstractPreprocessor._run_parrallel` (src/src/kmol/data/preprocessor.py:80-116)
applied to `CachePreprocessor._prepare_chunk`: the dataset is chunked with
`_get_chunks`, each chunk is processed by an isolated worker process (workers
share no state, so each per-chunk result is the pure `prepareChunk` output), and
the partial results are merged under the in-memory or the disk-backed policy.
Worker completion order cannot influence the merge because
`[future.result() for future in futures]` iterates the `futures` list, which is
in submission order. -/
def AbstractPreprocessor.runParallel (step : Sample → TResult)
    (dataset : List Sample) (W : Nat) (useDisk : Bool) : Option (List Sample) :=
  match getChunks dataset.length W with
  | none => none
  | some chunkIdxs =>
    let results := chunkIdxs.map
      (fun idxs => (CachePreprocessor.prepareChunk step (subsetOf dataset idxs)).1)
    some (if useDisk then mergeDisk results else mergeMemory results)

theorem prepareChunk_fst_append (step : Sample → TResult) (xs ys : List Sample) :
    (CachePreprocessor.prepareChunk step (xs ++ ys)).1 =
      (CachePreprocessor.prepareChunk step xs).1 ++
        (CachePreprocessor.prepareChunk step ys).1 := by
  induction xs with
  | nil => simp [CachePreprocessor.prepareChunk]
  | cons s rest ih =>
    simp only [List.cons_append, CachePreprocessor.prepareChunk]
    cases hstep : step s <;> simp [ih]

theorem prepareChunk_fst_flatten (step : Sample → TResult) (ls : List (List Sample)) :
    (CachePreprocessor.prepareChunk step ls.flatten).1 =
      (ls.map (fun l => (CachePreprocessor.prepareChunk step l).1)).flatten := by
  induction ls with
  | nil => rfl
  | cons l rest ih =>
    simp only [List.flatten_cons, List.map_cons]
    rw [prepareChunk_fst_append, ih]

theorem mergeDisk_eq_flatten (results : List (List Sample)) :
    mergeDisk results = results.flatten := by
  cases results with
  | nil => rfl
  | cons d rest =>
    simp only [mergeDisk, List.flatten_cons]
    induction rest generalizing d with
    | nil => simp
    | cons x xs ih =>
      simp only [List.foldl_cons, List.flatten_cons]
      rw [ih (d ++ x), List.append_assoc]

theorem subsetOf_range_length (dataset : List Sample) :
    subsetOf dataset (List.range dataset.length) = dataset := by
  unfold subsetOf
  induction dataset with
  | nil => rfl
  | cons a t ih =>
    rw [List.length_cons, List.range_succ_eq_map, List.filterMap_cons]
    simp only [List.getElem?_cons_zero, List.filterMap_map]
    have hfun : ((fun i => (a :: t)[i]?) ∘ Nat.succ) = fun i => t[i]? := by
      funext i
      simp [List.getElem?_cons_succ]
    rw [hfun, ih]

theorem subsetOf_flatten (dataset : List Sample) (idxss : List (List Nat)) :
    subsetOf dataset idxss.flatten =
      (idxss.map (subsetOf dataset)).flatten := by
  unfold subsetOf
  induction idxss with
  | nil => rfl
  | cons l rest ih =>
    simp only [List.flatten_cons, List.map_cons, List.filterMap_append, ih]

/-- C5: merging the parallel per-chunk results reproduces the single-threaded
sequential order.  For every transform chain, dataset and worker count with
`1 ≤ W ≤ |dataset|` (so that `_get_chunks` succeeds, cf. C2), and under either
merge policy (in-memory concatenation in chunk order, or extending the first
disk-backed collection with the others in order), `_run_parrallel` returns
exactly the dataset a sequential `_prepare_chunk` over the whole dataset
produces — same samples, same order. -/
theorem c5_merge_order (step : Sample → TResult) (dataset : List Sample)
    (W : Nat) (useDisk : Bool) (hW : 1 ≤ W) (hS : W ≤ dataset.length) :
    AbstractPreprocessor.runParallel step dataset W useDisk =
      some (CachePreprocessor.prepareChunk step dataset).1 := by
  have hc : 0 < dataset.length / W := (Nat.one_le_div_iff (by omega)).mpr hS
  have heq : getChunks dataset.length W =
      some ((List.range ((dataset.length + dataset.length / W - 1) / (dataset.length / W))).map
        (fun i => ((List.range dataset.length).drop (i * (dataset.length / W))).take
          (dataset.length / W))) := by
    unfold getChunks
    simp only []
    rw [if_neg (by omega)]
  have hflat : ((List.range ((dataset.length + dataset.length / W - 1) / (dataset.length / W))).map
      (fun i => ((List.range dataset.length).drop (i * (dataset.length / W))).take
        (dataset.length / W))).flatten = List.range dataset.length :=
    flatten_slices (dataset.length / W) hc _ (List.range dataset.length)
      (by rw [List.length_range])
  unfold AbstractPreprocessor.runParallel
  rw [heq]
  simp only []
  have hmerge : ∀ rs : List (List Sample),
      (if useDisk then mergeDisk rs else mergeMemory rs) = rs.flatten := by
    intro rs
    cases useDisk with
    | false => rfl
    | true => simp [mergeDisk_eq_flatten]
  rw [hmerge]
  congr 1
  have hcomp : (fun idxs => (CachePreprocessor.prepareChunk step (subsetOf dataset idxs)).1)
      = (fun l => (CachePreprocessor.prepareChunk step l).1) ∘ (subsetOf dataset) := rfl
  rw [hcomp, ← List.map_map, ← prepareChunk_fst_flatten, ← subsetOf_flatten, hflat,
    subsetOf_range_length]

/-- Scenario dataset for the C5 witness: 8 samples split into 4 equal chunks. -/
def sc5Samples : List Sample :=
  (List.range 8).map (fun i => Sample.mk i [])

/-- Witness for `c5_merge_order`: 4 chunks of equal size processed by 4 workers
and merged through the disk-backed policy reproduce the sequential order. -/
theorem c5_merge_order_witness :
    AbstractPreprocessor.runParallel TResult.ok sc5Samples 4 true =
      some (CachePreprocessor.prepareChunk TResult.ok sc5Samples).1 :=
  c5_merge_order TResult.ok sc5Samples 4 true (by decide) (by decide)

/-! ## `FilePreprocessor._load_dataset` -/

/-- Constructor configuration of `FilePreprocessor`
(src/src/kmol/data/preprocessor.py:323-341): output folder, the transformed
fields to serialize (`feature_to_save`), the input fields whose values name the
output files (`input_to_use_has_filename`), and the overwrite flag. -/
structure FPConfig where
  folderName : String
  featureToSave : List String
  inputToUseHasFilename : List String
  overwrite : Bool
deriving DecidableEq

/-- The written file paths of a sample,
`self.folder_name / input_field_filename / f"{sample.inputs[input_field_filename]}.pkl"`
(src/src/kmol/data/preprocessor.py:349-351), one per entry of
`input_to_use_has_filename`, in order.  The subscript `sample.inputs[...]` sits
*before* the `try` block: on a sample missing a configured field it raises an
uncaught `KeyError` that aborts the whole run (fatal, outside the per-sample
policy).  The embedding therefore only speaks for samples that carry every
configured filename field — `FilePreprocessor.hasFields` below — which the
theorems about this loop assume and their witnesses satisfy; the `getD ""`
default is never exercised under that assumption. -/
def filenamesFor (cfg : FPConfig) (s : Sample) : List String :=
  cfg.inputToUseHasFilename.map
    (fun fld => cfg.folderName ++ "/" ++ fld ++ "/" ++
      (dictLookupS s.inputs fld).getD "" ++ ".pkl")

/-- Whether a sample carries every field of `input_to_use_has_filename` — the
domain on which `FilePreprocessor._load_dataset` reaches its per-sample policy
at all (a missing field raises an uncaught `KeyError` at
src/src/kmol/data/preprocessor.py:351, before the `try`, aborting the run). -/
def FilePreprocessor.hasFields (cfg : FPConfig) (s : Sample) : Bool :=
  cfg.inputToUseHasFilename.all (fun fld => (dictLookupS s.inputs fld).isSome)

/-- The filesystem below the output folder, as a finite map from path to
serialized content. -/
def pathsOf (fs : List (String × String)) : List String :=
  fs.map Prod.fst

/-- `filename.exists()` on the modelled filesystem. -/
def hasPath (fs : List (String × String)) (p : String) : Bool :=
  fs.any (fun q => q.1 == p)

/-- `open(filename, "wb"); pickle.dump(value, file)` — create or overwrite one
file. -/
def writeFile (fs : List (String × String)) (p c : String) : List (String × String) :=
  if hasPath fs p then fs.map (fun q => if q.1 = p then (p, c) else q)
  else fs ++ [(p, c)]

/-- The skip test of `FilePreprocessor._load_dataset`
(src/src/kmol/data/preprocessor.py:352):
`if not self.overwrite and all([filename.exists() for filename in filenames]): continue`. -/
def FilePreprocessor.skipQ (cfg : FPConfig) (fs : List (String × String)) (s : Sample) : Bool :=
  !cfg.overwrite && (filenamesFor cfg s).all (fun f => hasPath fs f)

/-- One iteration of the `FilePreprocessor._load_dataset` loop
(src/src/kmol/data/preprocessor.py:347-363) on one sample: if the skip test
holds, nothing runs (`continue`); otherwise the transform chain runs and, on
success, `zip(self.feature_to_save, filenames)` is written file by file; on
`FeaturizationError e` only `logging.warning(e)` is emitted (no traceback); on
any other exception `e` only `logging.debug(f"{sample} {smiles} - {e}")` is
emitted — debug severity, no traceback.  In every case the loop proceeds to the
next sample.  The write loop reads `outputs.inputs[output_name]`
(line 358, inside the `try`); the embedding's `getD ""` there speaks for
transformed samples that carry every configured `feature_to_save` field — on a
sample missing one, the real code raises a `KeyError` that the generic handler
catches after the earlier zip files were already written.  The claims about
this loop presuppose samples carrying the configured fields, and the witnesses
instantiate them accordingly. -/
def FilePreprocessor.fileStep (step : Sample → TResult) (cfg : FPConfig)
    (fs : List (String × String)) (s : Sample) :
    List (String × String) × List LogEntry :=
  let smiles := smilesOf s
  let filenames := filenamesFor cfg s
  if FilePreprocessor.skipQ cfg fs s then (fs, [])
  else
    match step s with
    | .ok s2 =>
        ((cfg.featureToSave.zip filenames).foldl
          (fun acc pr => writeFile acc pr.2 ((dictLookupS s2.inputs pr.1).getD "")) fs,
         [])
    | .featErr m _ => (fs, [.warn m])
    | .otherErr m _ => (fs, [.debug (sampleRepr s ++ " " ++ smiles ++ " - " ++ m)])

/-- The full `FilePreprocessor._load_dataset` loop over the loader's samples in
order, threading the filesystem and collecting the log lines. -/
def FilePreprocessor.loadDataset (step : Sample → TResult) (cfg : FPConfig) :
    List Sample → List (String × String) → List (String × String) × List LogEntry
  | [], fs => (fs, [])
  | s :: rest, fs =>
    let r := FilePreprocessor.fileStep step cfg fs s
    let r2 := FilePreprocessor.loadDataset step cfg rest r.1
    (r2.1, r.2 ++ r2.2)

theorem prepareChunk_fst_filterMap (step : Sample → TResult) (chunk : List Sample) :
    (CachePreprocessor.prepareChunk step chunk).1 = chunk.filterMap (okOf step) := by
  induction chunk with
  | nil => rfl
  | cons s rest ih =>
    simp only [CachePreprocessor.prepareChunk, List.filterMap_cons, okOf]
    cases hstep : step s <;> simp [hstep, ih]

/-- C8 (amended): a generic (non-`FeaturizationError`) exception during the
transform of one sample drops that sample and processing continues, in both bulk
loops; but the log severities differ.  `CachePreprocessor._prepare_chunk` logs
an *error* line carrying the sample display form (hence the identifier), the raw
input text, the message and the full traceback, while
`FilePreprocessor._load_dataset` logs a *debug* line carrying only the sample
display form, the raw input text and the message — no traceback and not at
error severity.  The file-loop statements are scoped to samples carrying every
configured filename field: on any other sample `_load_dataset` raises an
uncaught `KeyError` before the `try` and aborts the run, so no per-sample log
line exists there at all. -/
theorem c8_generic_error_policy (step : Sample → TResult) :
    (∀ chunk : List Sample,
      (CachePreprocessor.prepareChunk step chunk).1 = chunk.filterMap (okOf step) ∧
      ∀ s ∈ chunk, ∀ m tb, step s = .otherErr m tb →
        LogEntry.err (sampleRepr s ++ " " ++ smilesOf s ++ " - " ++ m ++ "\n" ++ tb)
          ∈ (CachePreprocessor.prepareChunk step chunk).2) ∧
    (∀ (cfg : FPConfig) (fs : List (String × String)) (s : Sample) (m tb : String),
      FilePreprocessor.hasFields cfg s = true →
      step s = .otherErr m tb →
      FilePreprocessor.skipQ cfg fs s = false →
      FilePreprocessor.fileStep step cfg fs s =
        (fs, [LogEntry.debug (sampleRepr s ++ " " ++ smilesOf s ++ " - " ++ m)])) ∧
    (∀ (cfg : FPConfig) (fs : List (String × String)) (s : Sample)
        (rest : List Sample) (m tb : String),
      FilePreprocessor.hasFields cfg s = true →
      step s = .otherErr m tb →
      FilePreprocessor.skipQ cfg fs s = false →
      FilePreprocessor.loadDataset step cfg (s :: rest) fs =
        ((FilePreprocessor.loadDataset step cfg rest fs).1,
          LogEntry.debug (sampleRepr s ++ " " ++ smilesOf s ++ " - " ++ m)
            :: (FilePreprocessor.loadDataset step cfg rest fs).2)) := by
  refine ⟨?_, ?_, ?_⟩
  · intro chunk
    refine ⟨prepareChunk_fst_filterMap step chunk, ?_⟩
    induction chunk with
    | nil => intro s hs; exact absurd hs (List.not_mem_nil s)
    | cons t rest ih =>
      intro s hs m tb hstep
      rcases List.mem_cons.mp hs with rfl | hs'
      · simp only [CachePreprocessor.prepareChunk, hstep]
        exact List.mem_cons_self _ _
      · have hmem := ih s hs' m tb hstep
        simp only [CachePreprocessor.prepareChunk]
        cases hstept : step t <;> simp [hmem]
  · intro cfg fs s m tb _ hstep hskip
    simp [FilePreprocessor.fileStep, hskip, hstep]
  · intro cfg fs s rest m tb hfields hstep hskip
    have h1 : FilePreprocessor.fileStep step cfg fs s =
        (fs, [LogEntry.debug (sampleRepr s ++ " " ++ smilesOf s ++ " - " ++ m)]) := by
      simp [FilePreprocessor.fileStep, hskip, hstep]
    simp [FilePreprocessor.loadDataset, h1]

/-- Sample for the C8 scenario: it carries the configured filename field
`name` (so `_load_dataset` reaches its per-sample handlers on it), and its
single target file `out/name/mol1.pkl` does not yet exist. -/
def sc8Sample : Sample := Sample.mk 0 [("name", "mol1")]

/-- Transform chain for the C8 scenario: every sample raises a generic
exception with message `boom` and captured traceback `TRACE`. -/
def sc8Step (_ : Sample) : TResult := .otherErr "boom" "TRACE"

/-- Configuration for the C8 scenario. -/
def sc8Config : FPConfig := FPConfig.mk "out" ["descriptor"] ["name"] false

/-- C8 counterexample: in `FilePreprocessor._load_dataset` — one of the
per-sample transform loops the claim quantifies over — a generic exception on a
sample that carries its configured filename field (and whose target file does
not exist, so nothing is skipped) is logged at *debug* severity, not as an
error, and the log line does not contain the captured traceback, refuting the
claim as stated. -/
theorem c8_counterexample :
    FilePreprocessor.hasFields sc8Config sc8Sample = true ∧
      FilePreprocessor.skipQ sc8Config [] sc8Sample = false ∧
      (FilePreprocessor.fileStep sc8Step sc8Config [] sc8Sample).2 =
        [LogEntry.debug "DataPoint(id_=0)  - boom"] ∧
      ((FilePreprocessor.fileStep sc8Step sc8Config [] sc8Sample).2.countP LogEntry.isErr) = 0 ∧
      ∀ e ∈ (FilePreprocessor.fileStep sc8Step sc8Config [] sc8Sample).2,
        strContains e.msg "TRACE" = false := by
  decide

/-- Witness for `c8_generic_error_policy` at a concrete sample, configuration
and filesystem. -/
theorem c8_generic_error_policy_witness :
    LogEntry.err (sampleRepr sc8Sample ++ " " ++ smilesOf sc8Sample ++ " - " ++
        "boom" ++ "\n" ++ "TRACE")
      ∈ (CachePreprocessor.prepareChunk sc8Step [sc8Sample]).2 ∧
    FilePreprocessor.fileStep sc8Step sc8Config [] sc8Sample =
      ([], [LogEntry.debug (sampleRepr sc8Sample ++ " " ++ smilesOf sc8Sample ++
        " - " ++ "boom")]) :=
  ⟨((c8_generic_error_policy sc8Step).1 [sc8Sample]).2 sc8Sample
      (List.mem_singleton.mpr rfl) "boom" "TRACE" rfl,
    (c8_generic_error_policy sc8Step).2.1 sc8Config [] sc8Sample "boom" "TRACE"
      (by decide) rfl (by decide)⟩

theorem hasPath_congr (fs₁ fs₂ : List (String × String)) (p : String)
    (h : pathsOf fs₁ = pathsOf fs₂) : hasPath fs₁ p = hasPath fs₂ p := by
  have key : ∀ fs : List (String × String),
      hasPath fs p = (pathsOf fs).any (fun x => x == p) := by
    intro fs
    unfold hasPath pathsOf
    induction fs with
    | nil => rfl
    | cons a t ih => simp only [List.map_cons, List.any_cons, ih]
  rw [key, key, h]

theorem pathsOf_writeFile_of_hasPath (fs : List (String × String)) (p c : String)
    (h : hasPath fs p = true) : pathsOf (writeFile fs p c) = pathsOf fs := by
  unfold writeFile
  rw [if_pos h]
  unfold pathsOf
  rw [List.map_map]
  apply List.map_congr_left
  intro q _
  by_cases hqp : q.1 = p
  · simp [hqp]
  · simp [hqp]

theorem hasPath_writeFile_self (fs : List (String × String)) (p c : String) :
    hasPath (writeFile fs p c) p = true := by
  unfold writeFile
  by_cases h : hasPath fs p = true
  · rw [if_pos h]
    rcases List.any_eq_true.mp h with ⟨q, hq, hqp⟩
    apply List.any_eq_true.mpr
    refine ⟨if q.1 = p then (p, c) else q, List.mem_map_of_mem _ hq, ?_⟩
    have hq1 : q.1 = p := by simpa using hqp
    simp [hq1]
  · rw [if_neg h]
    apply List.any_eq_true.mpr
    exact ⟨(p, c), List.mem_append_right _ (List.mem_singleton.mpr rfl), by simp⟩

theorem hasPath_writeFile_mono (fs : List (String × String)) (p c q : String)
    (h : hasPath fs q = true) : hasPath (writeFile fs p c) q = true := by
  unfold writeFile
  rcases List.any_eq_true.mp h with ⟨r, hr, hrq⟩
  by_cases hp : hasPath fs p = true
  · rw [if_pos hp]
    apply List.any_eq_true.mpr
    refine ⟨if r.1 = p then (p, c) else r, List.mem_map_of_mem _ hr, ?_⟩
    by_cases hr1 : r.1 = p
    · simp only [hr1, if_pos rfl]
      rw [← hr1]
      exact hrq
    · simp only [if_neg hr1]
      exact hrq
  · rw [if_neg hp]
    exact List.any_eq_true.mpr ⟨r, List.mem_append_left _ hr, hrq⟩

theorem foldl_write_hasPath_mono (g : String × String → String)
    (prs : List (String × String)) :
    ∀ (fs : List (String × String)) (q : String), hasPath fs q = true →
      hasPath (prs.foldl (fun acc pr => writeFile acc pr.2 (g pr)) fs) q = true := by
  induction prs with
  | nil => intro fs q h; exact h
  | cons pr rest ih =>
    intro fs q h
    exact ih _ q (hasPath_writeFile_mono fs pr.2 (g pr) q h)

theorem foldl_write_targets (g : String × String → String)
    (prs : List (String × String)) :
    ∀ (fs : List (String × String)), ∀ pr ∈ prs,
      hasPath (prs.foldl (fun acc p => writeFile acc p.2 (g p)) fs) pr.2 = true := by
  induction prs with
  | nil => intro fs pr hpr; exact absurd hpr (List.not_mem_nil pr)
  | cons pr0 rest ih =>
    intro fs pr hpr
    rcases List.mem_cons.mp hpr with rfl | hpr'
    · exact foldl_write_hasPath_mono g rest _ pr.2 (hasPath_writeFile_self fs pr.2 (g pr))
    · exact ih _ pr hpr'

theorem pathsOf_foldl_write_of_present (g : String × String → String)
    (prs : List (String × String)) :
    ∀ (fs : List (String × String)), (∀ pr ∈ prs, hasPath fs pr.2 = true) →
      pathsOf (prs.foldl (fun acc p => writeFile acc p.2 (g p)) fs) = pathsOf fs := by
  induction prs with
  | nil => intro fs _; rfl
  | cons pr0 rest ih =>
    intro fs hall
    have h0 : hasPath fs pr0.2 = true := hall pr0 (List.mem_cons_self pr0 rest)
    have hw : pathsOf (writeFile fs pr0.2 (g pr0)) = pathsOf fs :=
      pathsOf_writeFile_of_hasPath fs pr0.2 (g pr0) h0
    have hrest : ∀ pr ∈ rest, hasPath (writeFile fs pr0.2 (g pr0)) pr.2 = true := by
      intro pr hpr
      rw [hasPath_congr _ fs pr.2 hw]
      exact hall pr (List.mem_cons_of_mem pr0 hpr)
    simp only [List.foldl_cons]
    rw [ih _ hrest, hw]

theorem fileStep_hasPath_mono (step : Sample → TResult) (cfg : FPConfig)
    (fs : List (String × String)) (s : Sample) (q : String)
    (h : hasPath fs q = true) :
    hasPath (FilePreprocessor.fileStep step cfg fs s).1 q = true := by
  unfold FilePreprocessor.fileStep
  by_cases hskip : FilePreprocessor.skipQ cfg fs s = true
  · rw [if_pos hskip]
    exact h
  · rw [if_neg hskip]
    cases hstep : step s with
    | ok s2 => exact foldl_write_hasPath_mono _ _ fs q h
    | featErr m tb => exact h
    | otherErr m tb => exact h

theorem loadDataset_hasPath_mono (step : Sample → TResult) (cfg : FPConfig) :
    ∀ (samples : List Sample) (fs : List (String × String)) (q : String),
      hasPath fs q = true →
      hasPath (FilePreprocessor.loadDataset step cfg samples fs).1 q = true := by
  intro samples
  induction samples with
  | nil => intro fs q h; exact h
  | cons s rest ih =>
    intro fs q h
    exact ih _ q (fileStep_hasPath_mono step cfg fs s q h)

theorem loadDataset_targets_present (step : Sample → TResult) (cfg : FPConfig) :
    ∀ (samples : List Sample) (fs : List (String × String)),
      ∀ s ∈ samples, (step s).isOk = true →
        ∀ pr ∈ cfg.featureToSave.zip (filenamesFor cfg s),
          hasPath (FilePreprocessor.loadDataset step cfg samples fs).1 pr.2 = true := by
  intro samples
  induction samples with
  | nil => intro fs s hs; exact absurd hs (List.not_mem_nil s)
  | cons s0 rest ih =>
    intro fs s hs hok pr hpr
    rcases List.mem_cons.mp hs with rfl | hs'
    · have h1 : hasPath (FilePreprocessor.fileStep step cfg fs s).1 pr.2 = true := by
        unfold FilePreprocessor.fileStep
        by_cases hskip : FilePreprocessor.skipQ cfg fs s = true
        · rw [if_pos hskip]
          have hall := (Bool.and_eq_true _ _).mp hskip
          have hmem : pr.2 ∈ filenamesFor cfg s := (List.of_mem_zip hpr).2
          have := (List.all_eq_true.mp hall.2) pr.2 hmem
          simpa using this
        · rw [if_neg hskip]
          cases hstep : step s with
          | ok s2 => exact foldl_write_targets _ _ fs pr hpr
          | featErr m tb =>
            rw [hstep] at hok
            exact absurd hok (by simp [TResult.isOk])
          | otherErr m tb =>
            rw [hstep] at hok
            exact absurd hok (by simp [TResult.isOk])
      exact loadDataset_hasPath_mono step cfg rest _ pr.2 h1
    · exact ih _ s hs' hok pr hpr

theorem fileStep_pathsOf_preserved (step : Sample → TResult) (cfg : FPConfig)
    (fs : List (String × String)) (s : Sample)
    (hpres : (step s).isOk = true →
      ∀ pr ∈ cfg.featureToSave.zip (filenamesFor cfg s), hasPath fs pr.2 = true) :
    pathsOf (FilePreprocessor.fileStep step cfg fs s).1 = pathsOf fs := by
  unfold FilePreprocessor.fileStep
  by_cases hskip : FilePreprocessor.skipQ cfg fs s = true
  · rw [if_pos hskip]
  · rw [if_neg hskip]
    cases hstep : step s with
    | ok s2 =>
      apply pathsOf_foldl_write_of_present
      apply hpres
      rw [hstep]
      rfl
    | featErr m tb => rfl
    | otherErr m tb => rfl

theorem loadDataset_pathsOf_stable (step : Sample → TResult) (cfg : FPConfig) :
    ∀ (samples : List Sample) (fs : List (String × String)),
      (∀ s ∈ samples, (step s).isOk = true →
        ∀ pr ∈ cfg.featureToSave.zip (filenamesFor cfg s), hasPath fs pr.2 = true) →
      pathsOf (FilePreprocessor.loadDataset step cfg samples fs).1 = pathsOf fs := by
  intro samples
  induction samples with
  | nil => intro fs _; rfl
  | cons s0 rest ih =>
    intro fs hall
    have h0 : pathsOf (FilePreprocessor.fileStep step cfg fs s0).1 = pathsOf fs :=
      fileStep_pathsOf_preserved step cfg fs s0
        (fun hok => hall s0 (List.mem_cons_self s0 rest) hok)
    have hrest : ∀ s ∈ rest, (step s).isOk = true →
        ∀ pr ∈ cfg.featureToSave.zip (filenamesFor cfg s),
          hasPath (FilePreprocessor.fileStep step cfg fs s0).1 pr.2 = true := by
      intro s hs hok pr hpr
      rw [hasPath_congr _ fs pr.2 h0]
      exact hall s (List.mem_cons_of_mem s0 hs) hok pr hpr
    show pathsOf (FilePreprocessor.loadDataset step cfg rest
        (FilePreprocessor.fileStep step cfg fs s0).1).1 = pathsOf fs
    rw [ih _ hrest, h0]

/-- C9: with the overwrite flag false, a sample all of whose target output files
already exist is skipped entirely: the filesystem and the log are untouched, and
the result does not depend on the transform chain at all (so the chain is not
run).  Consequently file preparation is idempotent: re-running the same request
over the same samples creates no new file — the set (indeed the list) of stored
paths after a second pass equals the one after the first. -/
theorem c9_skip_idempotent :
    (∀ (step step2 : Sample → TResult) (cfg : FPConfig)
        (fs : List (String × String)) (s : Sample),
      cfg.overwrite = false →
      (filenamesFor cfg s).all (fun f => hasPath fs f) = true →
      FilePreprocessor.fileStep step cfg fs s = (fs, []) ∧
        FilePreprocessor.fileStep step cfg fs s =
          FilePreprocessor.fileStep step2 cfg fs s) ∧
    (∀ (step : Sample → TResult) (cfg : FPConfig) (samples : List Sample)
        (fs0 : List (String × String)),
      cfg.overwrite = false →
      pathsOf (FilePreprocessor.loadDataset step cfg samples
          (FilePreprocessor.loadDataset step cfg samples fs0).1).1 =
        pathsOf (FilePreprocessor.loadDataset step cfg samples fs0).1) := by
  constructor
  · intro step step2 cfg fs s hov hall
    have hskip : FilePreprocessor.skipQ cfg fs s = true := by
      unfold FilePreprocessor.skipQ
      rw [hov, hall]
      rfl
    constructor
    · unfold FilePreprocessor.fileStep
      rw [if_pos hskip]
    · unfold FilePreprocessor.fileStep
      rw [if_pos hskip, if_pos hskip]
  · intro step cfg samples fs0 _
    exact loadDataset_pathsOf_stable step cfg samples _
      (loadDataset_targets_present step cfg samples fs0)

/-- Configuration for the C9 witness. -/
def sc9Config : FPConfig := FPConfig.mk "out" ["descriptor"] ["name"] false

/-- Sample for the C9 witness; its single target file is
`out/name/mol1.pkl`. -/
def sc9Sample : Sample := Sample.mk 0 [("name", "mol1"), ("descriptor", "FEAT")]

/-- A pre-existing filesystem already holding the C9 witness sample's target
file. -/
def sc9Fs : List (String × String) := [("out/name/mol1.pkl", "FEAT")]

/-- A second, different transform chain for the C9 witness, to exercise
transform-chain independence of the skip. -/
def sc9AltStep (_ : Sample) : TResult := .featErr "f" "t"

/-- Witness for `c9_skip_idempotent` at a concrete sample, configuration and
filesystem. -/
theorem c9_skip_idempotent_witness :
    (FilePreprocessor.fileStep TResult.ok sc9Config sc9Fs sc9Sample = (sc9Fs, []) ∧
      FilePreprocessor.fileStep TResult.ok sc9Config sc9Fs sc9Sample =
        FilePreprocessor.fileStep sc9AltStep sc9Config sc9Fs sc9Sample) ∧
    pathsOf (FilePreprocessor.loadDataset TResult.ok sc9Config [sc9Sample]
        (FilePreprocessor.loadDataset TResult.ok sc9Config [sc9Sample] []).1).1 =
      pathsOf (FilePreprocessor.loadDataset TResult.ok sc9Config [sc9Sample] []).1 :=
  ⟨c9_skip_idempotent.1 TResult.ok sc9AltStep sc9Config sc9Fs sc9Sample rfl (by decide),
    c9_skip_idempotent.2 TResult.ok sc9Config [sc9Sample] [] rfl⟩

/-! ## `CacheManager.key`: canonicalization and digest -/

/-- A JSON-serializable Python value as passed to `CacheManager.key(**kwargs)`:
strings, integers, lists and string-keyed dicts (the kwargs of every `key` call
site in the repository are built from such values). -/
inductive JVal where
  | str : String → JVal
  | num : Int → JVal
  | arr : List JVal → JVal
  | obj : List (String × JVal) → JVal

/-- Lexicographic (code-point) order on strings as lists of characters — the
order `sorted` uses on Python `str` keys. -/
def lexLeB : List Char → List Char → Bool
  | [], _ => true
  | _ :: _, [] => false
  | a :: as, b :: bs =>
    if a.toNat < b.toNat then true
    else if b.toNat < a.toNat then false
    else lexLeB as bs

/-- Key order for `sorted(dictionary.items())`: items compared by their key
(the keys of a dict are distinct, so the comparison never reaches the values). -/
def entryLe (p q : String × JVal) : Prop :=
  lexLeB p.1.data q.1.data = true

instance : DecidableRel entryLe := fun p q => by
  unfold entryLe
  infer_instance

mutual
/-- Embeds `CacheManager._sort` (src/lib/core/helpers.py:142-147): every value
that is itself a dict is sorted recursively, then the dict's items are sorted by
key.  Values of any other type — including lists, and hence any dict inside a
list — are left untouched. -/
def sortParams : JVal → JVal
  | .str s => .str s
  | .num n => .num n
  | .arr l => .arr l
  | .obj l => .obj (List.insertionSort entryLe (sortEntries l))

/-- The recursive descent of `_sort` into dict-typed values
(`if type(value) is dict: dictionary[key] = self._sort(value)`). -/
def sortEntries : List (String × JVal) → List (String × JVal)
  | [] => []
  | (k, v) :: t => (k, sortParams v) :: sortEntries t
end

/-- JSON string escaping as `json.dumps` performs it on the quote and backslash
characters (the repository's keys and values contain no control characters). -/
def jstrEscape : List Char → List Char
  | [] => []
  | c :: t =>
    if c = '"' ∨ c = '\\' then '\\' :: c :: jstrEscape t else c :: jstrEscape t

/-- A JSON string literal. -/
def jstr (s : String) : String :=
  "\"" ++ String.mk (jstrEscape s.data) ++ "\""

mutual
/-- `json.dumps` with its default separators `(", ", ": ")`
(src/lib/core/helpers.py:151). -/
def jdump : JVal → String
  | .str s => jstr s
  | .num n => toString n
  | .arr l => "[" ++ jdumpList l ++ "]"
  | .obj l => "\x7b" ++ jdumpEntries l ++ "\x7d"

/-- Comma-separated dump of a JSON array's elements. -/
def jdumpList : List JVal → String
  | [] => ""
  | [v] => jdump v
  | v :: w :: t => jdump v ++ ", " ++ jdumpList (w :: t)

/-- Comma-separated dump of a JSON object's entries. -/
def jdumpEntries : List (String × JVal) → String
  | [] => ""
  | [(k, v)] => jstr k ++ ": " ++ jdump v
  | (k, v) :: e :: t => jstr k ++ ": " ++ jdump v ++ ", " ++ jdumpEntries (e :: t)
end

/-! ### MD5 (RFC 1321), over byte lists, little-endian words -/

/-- Truncation to a 32-bit word. -/
def mask32 (x : Nat) : Nat := x % 4294967296

/-- 32-bit left rotation. -/
def rotl32 (x s : Nat) : Nat :=
  mask32 ((x <<< s) ||| (x >>> (32 - s)))

/-- The 64 MD5 sine-table constants. -/
def md5K : List Nat :=
  [0xd76aa478, 0xe8c7b756, 0x242070db, 0xc1bdceee,
   0xf57c0faf, 0x4787c62a, 0xa8304613, 0xfd469501,
   0x698098d8, 0x8b44f7af, 0xffff5bb1, 0x895cd7be,
   0x6b901122, 0xfd987193, 0xa679438e, 0x49b40821,
   0xf61e2562, 0xc040b340, 0x265e5a51, 0xe9b6c7aa,
   0xd62f105d, 0x02441453, 0xd8a1e681, 0xe7d3fbc8,
   0x21e1cde6, 0xc33707d6, 0xf4d50d87, 0x455a14ed,
   0xa9e3e905, 0xfcefa3f8, 0x676f02d9, 0x8d2a4c8a,
   0xfffa3942, 0x8771f681, 0x6d9d6122, 0xfde5380c,
   0xa4beea44, 0x4bdecfa9, 0xf6bb4b60, 0xbebfbc70,
   0x289b7ec6, 0xeaa127fa, 0xd4ef3085, 0x04881d05,
   0xd9d4d039, 0xe6db99e5, 0x1fa27cf8, 0xc4ac5665,
   0xf4292244, 0x432aff97, 0xab9423a7, 0xfc93a039,
   0x655b59c3, 0x8f0ccc92, 0xffeff47d, 0x85845dd1,
   0x6fa87e4f, 0xfe2ce6e0, 0xa3014314, 0x4e0811a1,
   0xf7537e82, 0xbd3af235, 0x2ad7d2bb, 0xeb86d391]

/-- The 64 MD5 per-round shift amounts. -/
def md5S : List Nat :=
  [7, 12, 17, 22, 7, 12, 17, 22, 7, 12, 17, 22, 7, 12, 17, 22,
   5, 9, 14, 20, 5, 9, 14, 20, 5, 9, 14, 20, 5, 9, 14, 20,
   4, 11, 16, 23, 4, 11, 16, 23, 4, 11, 16, 23, 4, 11, 16, 23,
   6, 10, 15, 21, 6, 10, 15, 21, 6, 10, 15, 21, 6, 10, 15, 21]

/-- Little-endian byte decomposition of a number, `k` bytes wide. -/
def leBytes : Nat → Nat → List Nat
  | 0, _ => []
  | k + 1, x => (x % 256) :: leBytes k (x / 256)

/-- MD5 padding: a `0x80` byte, zeros to 56 mod 64, then the bit length as a
64-bit little-endian quantity. -/
def md5Pad (msg : List Nat) : List Nat :=
  msg ++ [128] ++ List.replicate ((119 - msg.length % 64) % 64) 0 ++
    leBytes 8 ((8 * msg.length) % 18446744073709551616)

/-- A 64-byte block as sixteen little-endian 32-bit words. -/
def md5Words (block : List Nat) : List Nat :=
  (List.range 16).map (fun j =>
    ((block.drop (4 * j)).take 4).foldr (fun b acc => b + 256 * acc) 0)

/-- One of the 64 MD5 rounds, acting on the state `(a, b, c, d)`. -/
def md5Round (M : List Nat) (st : Nat × Nat × Nat × Nat) (i : Nat) :
    Nat × Nat × Nat × Nat :=
  let a := st.1
  let b := st.2.1
  let c := st.2.2.1
  let d := st.2.2.2
  let fg : Nat × Nat :=
    if i < 16 then ((b &&& c) ||| ((4294967295 ^^^ b) &&& d), i)
    else if i < 32 then ((d &&& b) ||| ((4294967295 ^^^ d) &&& c), (5 * i + 1) % 16)
    else if i < 48 then (b ^^^ c ^^^ d, (3 * i + 5) % 16)
    else (c ^^^ (b ||| (4294967295 ^^^ d)), (7 * i) % 16)
  let f := mask32 (fg.1 + a + md5K.getD i 0 + M.getD fg.2 0)
  (d, mask32 (b + rotl32 f (md5S.getD i 0)), b, c)

/-- Process one 64-byte block into the running state. -/
def md5Block (st : Nat × Nat × Nat × Nat) (block : List Nat) :
    Nat × Nat × Nat × Nat :=
  let M := md5Words block
  let r := (List.range 64).foldl (md5Round M) st
  (mask32 (st.1 + r.1), mask32 (st.2.1 + r.2.1),
   mask32 (st.2.2.1 + r.2.2.1), mask32 (st.2.2.2 + r.2.2.2))

/-- The 16-byte MD5 digest of a byte list. -/
def md5Bytes (msg : List Nat) : List Nat :=
  let padded := md5Pad msg
  let final := (List.range (padded.length / 64)).foldl
    (fun st i => md5Block st ((padded.drop (64 * i)).take 64))
    (0x67452301, 0xefcdab89, 0x98badcfe, 0x10325476)
  leBytes 4 final.1 ++ leBytes 4 final.2.1 ++ leBytes 4 final.2.2.1 ++
    leBytes 4 final.2.2.2

/-- A nibble as a lowercase hexadecimal character. -/
def hexDigit (n : Nat) : Char :=
  if n < 10 then Char.ofNat (48 + n) else Char.ofNat (87 + n)

/-- `hashlib.md5(s.encode("utf-8")).hexdigest()` for ASCII content — each
character is one byte. -/
def md5String (s : String) : String :=
  String.mk ((md5Bytes (s.data.map Char.toNat)).foldr
    (fun b acc => hexDigit (b / 16) :: hexDigit (b % 16) :: acc) [])

/-- Sanity check of the MD5 embedding against the RFC 1321 test suite. -/
theorem md5_rfc_vector_empty : md5String "" = "d41d8cd98f00b204e9800998ecf8427e" := by
  decide

/-- Sanity check of the MD5 embedding against the RFC 1321 test suite. -/
theorem md5_rfc_vector_abc : md5String "abc" = "900150983cd24fb0d6963f7d28e17f72" := by
  decide

/-- Embeds `CacheManager.key` (src/lib/core/helpers.py:149-153):
`hashlib.md5(json.dumps(self._sort(kwargs)).encode("utf-8")).hexdigest()`. -/
def CacheManager.key (kwargs : List (String × JVal)) : String :=
  md5String (jdump (sortParams (.obj kwargs)))


theorem lexLeB_total : ∀ x y : List Char, lexLeB x y = true ∨ lexLeB y x = true := by
  intro x
  induction x with
  | nil => intro y; exact Or.inl rfl
  | cons a as ih =>
    intro y
    cases y with
    | nil => exact Or.inr rfl
    | cons b bs =>
      by_cases h1 : a.toNat < b.toNat
      · left
        simp [lexLeB, h1]
      · by_cases h2 : b.toNat < a.toNat
        · right
          simp [lexLeB, h2]
        · rcases ih bs with h | h
          · left
            simp [lexLeB, h1, h2, h]
          · right
            simp [lexLeB, h1, h2, h]

theorem lexLeB_trans : ∀ x y z : List Char,
    lexLeB x y = true → lexLeB y z = true → lexLeB x z = true := by
  intro x
  induction x with
  | nil => intro y z _ _; rfl
  | cons a as ih =>
    intro y z hxy hyz
    cases y with
    | nil => exact absurd hxy (by simp [lexLeB])
    | cons b bs =>
      cases z with
      | nil => exact absurd hyz (by simp [lexLeB])
      | cons c cs =>
        simp only [lexLeB] at hxy hyz ⊢
        split_ifs at hxy hyz ⊢ <;> first
          | rfl
          | (exfalso; omega)
          | simp at hxy
          | simp at hyz
          | exact ih bs cs hxy hyz

theorem lexLeB_antisymm : ∀ x y : List Char,
    lexLeB x y = true → lexLeB y x = true → x = y := by
  intro x
  induction x with
  | nil =>
    intro y _ hyx
    cases y with
    | nil => rfl
    | cons b bs => exact absurd hyx (by simp [lexLeB])
  | cons a as ih =>
    intro y hxy hyx
    cases y with
    | nil => exact absurd hxy (by simp [lexLeB])
    | cons b bs =>
      simp only [lexLeB] at hxy hyx
      split_ifs at hxy hyx with h1 h2 <;> try omega
      have hchar : a = b := by
        have hn : a.toNat = b.toNat := by omega
        have := congrArg Char.ofNat hn
        rwa [Char.ofNat_toNat, Char.ofNat_toNat] at this
      rw [hchar, ih bs hxy hyx]

instance : IsTotal (String × JVal) entryLe :=
  ⟨fun a b => lexLeB_total a.1.data b.1.data⟩

instance : IsTrans (String × JVal) entryLe :=
  ⟨fun _ _ _ hab hbc => lexLeB_trans _ _ _ hab hbc⟩

/-- The strict version of `entryLe`, obtained on entries with distinct keys. -/
def entryLt (p q : String × JVal) : Prop :=
  entryLe p q ∧ p.1 ≠ q.1

theorem string_data_inj (a b : String) (h : a.data = b.data) : a = b := by
  cases a
  cases b
  simp only at h
  rw [h]

instance : IsAntisymm (String × JVal) entryLt :=
  ⟨fun a b hab hba => by
    exfalso
    exact hab.2 (string_data_inj _ _ (lexLeB_antisymm _ _ hab.1 hba.1))⟩

/-- Distinctness of a dict's keys, as Python guarantees it. -/
def keyNodup : List String → Bool
  | [] => true
  | k :: t => !(t.any (fun x => x == k)) && keyNodup t

theorem keyNodup_iff (l : List String) : keyNodup l = true ↔ l.Nodup := by
  induction l with
  | nil => simp [keyNodup]
  | cons k t ih =>
    simp only [keyNodup, Bool.and_eq_true, Bool.not_eq_true', List.any_eq_false,
      List.nodup_cons, ih, beq_iff_eq]
    constructor
    · rintro ⟨h1, h2⟩
      exact ⟨fun hk => by simpa using h1 k hk, h2⟩
    · rintro ⟨h1, h2⟩
      exact ⟨fun x hx => by rintro rfl; exact h1 hx, h2⟩

mutual
/-- Key distinctness at the nesting levels `_sort` canonicalizes: the dict
itself and, recursively, every dict reached through dict values.  (Dicts inside
list values are not sorted by `_sort`, so their keys are unconstrained here.) -/
def jNodup : JVal → Bool
  | .str _ => true
  | .num _ => true
  | .arr _ => true
  | .obj l => keyNodup (l.map Prod.fst) && jNodupEntries l

/-- `jNodup` over a dict's values. -/
def jNodupEntries : List (String × JVal) → Bool
  | [] => true
  | (_, v) :: t => jNodup v && jNodupEntries t
end

theorem jNodupEntries_mem : ∀ l : List (String × JVal),
    jNodupEntries l = true → ∀ kv ∈ l, jNodup kv.2 = true := by
  intro l
  induction l with
  | nil => intro _ kv hkv; exact absurd hkv (List.not_mem_nil kv)
  | cons a t ih =>
    obtain ⟨k, v⟩ := a
    intro h kv hkv
    rw [jNodupEntries, Bool.and_eq_true] at h
    rcases List.mem_cons.mp hkv with rfl | hkv'
    · exact h.1
    · exact ih h.2 kv hkv'

/-- `A` and `B` are equal up to reordering dict entries at dict-value positions:
scalars and lists must coincide exactly, while a dict may permute the entries of
a related dict whose values are themselves related.  (`l'` carries the
entry-wise related list before the permutation.) -/
inductive ValPerm : JVal → JVal → Prop where
  | str (s : String) : ValPerm (.str s) (.str s)
  | num (n : Int) : ValPerm (.num n) (.num n)
  | arr (l : List JVal) : ValPerm (.arr l) (.arr l)
  | obj (l₁ lm l₂ : List (String × JVal)) :
      l₁.length = lm.length →
      (∀ pr ∈ l₁.zip lm, pr.1.1 = pr.2.1) →
      (∀ pr ∈ l₁.zip lm, ValPerm pr.1.2 pr.2.2) →
      lm.Perm l₂ →
      ValPerm (.obj l₁) (.obj l₂)

/-- `A` and `B` differ only in the ordering of keys inside maps, at any nesting
depth — including maps nested inside list values.  This is the relation the
claim quantifies over. -/
inductive KeyReorder : JVal → JVal → Prop where
  | str (s : String) : KeyReorder (.str s) (.str s)
  | num (n : Int) : KeyReorder (.num n) (.num n)
  | arr (l₁ l₂ : List JVal) :
      l₁.length = l₂.length →
      (∀ pr ∈ l₁.zip l₂, KeyReorder pr.1 pr.2) →
      KeyReorder (.arr l₁) (.arr l₂)
  | obj (l₁ lm l₂ : List (String × JVal)) :
      l₁.length = lm.length →
      (∀ pr ∈ l₁.zip lm, pr.1.1 = pr.2.1) →
      (∀ pr ∈ l₁.zip lm, KeyReorder pr.1.2 pr.2.2) →
      lm.Perm l₂ →
      KeyReorder (.obj l₁) (.obj l₂)

theorem sortEntries_eq_map (l : List (String × JVal)) :
    sortEntries l = l.map (fun kv => (kv.1, sortParams kv.2)) := by
  induction l with
  | nil => rfl
  | cons a t ih =>
    obtain ⟨k, v⟩ := a
    rw [sortEntries, List.map_cons, ih]

theorem map_fst_sortEntries (l : List (String × JVal)) :
    (sortEntries l).map Prod.fst = l.map Prod.fst := by
  rw [sortEntries_eq_map, List.map_map]
  apply List.map_congr_left
  intro kv _
  rfl

theorem sortEntries_congr : ∀ (l₁ lm : List (String × JVal)),
    l₁.length = lm.length →
    (∀ pr ∈ l₁.zip lm, pr.1.1 = pr.2.1) →
    (∀ pr ∈ l₁.zip lm, sortParams pr.1.2 = sortParams pr.2.2) →
    sortEntries l₁ = sortEntries lm := by
  intro l₁
  induction l₁ with
  | nil =>
    intro lm hlen _ _
    cases lm with
    | nil => rfl
    | cons b t => exact absurd hlen (by simp)
  | cons a t ih =>
    intro lm hlen hkeys hvals
    cases lm with
    | nil => exact absurd hlen (by simp)
    | cons b u =>
      obtain ⟨k, v⟩ := a
      obtain ⟨k2, v2⟩ := b
      have hk : k = k2 :=
        hkeys ((k, v), (k2, v2)) (by simp [List.zip_cons_cons])
      have hv : sortParams v = sortParams v2 :=
        hvals ((k, v), (k2, v2)) (by simp [List.zip_cons_cons])
      have ht : sortEntries t = sortEntries u := by
        apply ih u (by simpa using hlen)
        · intro pr hpr
          exact hkeys pr (by simp [List.zip_cons_cons, hpr])
        · intro pr hpr
          exact hvals pr (by simp [List.zip_cons_cons, hpr])
      rw [sortEntries, sortEntries, hk, hv, ht]

theorem map_fst_eq_of_zip : ∀ (l₁ lm : List (String × JVal)),
    l₁.length = lm.length →
    (∀ pr ∈ l₁.zip lm, pr.1.1 = pr.2.1) →
    l₁.map Prod.fst = lm.map Prod.fst := by
  intro l₁
  induction l₁ with
  | nil =>
    intro lm hlen _
    cases lm with
    | nil => rfl
    | cons b t => exact absurd hlen (by simp)
  | cons a t ih =>
    intro lm hlen hkeys
    cases lm with
    | nil => exact absurd hlen (by simp)
    | cons b u =>
      have hk : a.1 = b.1 :=
        hkeys (a, b) (by simp [List.zip_cons_cons])
      have ht : t.map Prod.fst = u.map Prod.fst := by
        apply ih u (by simpa using hlen)
        intro pr hpr
        exact hkeys pr (by simp [List.zip_cons_cons, hpr])
      simp [hk, ht]

theorem pairwise_and {α : Type} {R S : α → α → Prop} : ∀ {l : List α},
    l.Pairwise R → l.Pairwise S → l.Pairwise (fun a b => R a b ∧ S a b) := by
  intro l
  induction l with
  | nil => intro _ _; exact List.Pairwise.nil
  | cons a t ih =>
    intro hR hS
    rcases List.pairwise_cons.mp hR with ⟨hRa, hRt⟩
    rcases List.pairwise_cons.mp hS with ⟨hSa, hSt⟩
    exact List.pairwise_cons.mpr ⟨fun b hb => ⟨hRa b hb, hSa b hb⟩, ih hRt hSt⟩

theorem sorted_entryLt_of_nodup (l : List (String × JVal))
    (hs : List.Sorted entryLe l) (hn : (l.map Prod.fst).Nodup) :
    List.Sorted entryLt l := by
  have hne : l.Pairwise (fun p q : String × JVal => p.1 ≠ q.1) :=
    List.pairwise_map.mp hn
  exact pairwise_and hs hne

theorem sortParams_eq_of_valPerm : ∀ a b : JVal, ValPerm a b →
    jNodup a = true → sortParams a = sortParams b := by
  intro a b hperm
  induction hperm with
  | str s => intro _; rfl
  | num n => intro _; rfl
  | arr l => intro _; rfl
  | obj l₁ lm l₂ hlen hkeys hvals hp ih =>
    intro hnodup
    simp only [jNodup, Bool.and_eq_true] at hnodup
    obtain ⟨hkN, hvN⟩ := hnodup
    have hse : sortEntries l₁ = sortEntries lm := by
      apply sortEntries_congr l₁ lm hlen hkeys
      intro pr hpr
      apply ih pr hpr
      exact jNodupEntries_mem l₁ hvN pr.1 (List.of_mem_zip hpr).1
    have hpm : (sortEntries l₁).Perm (sortEntries l₂) := by
      rw [hse, sortEntries_eq_map, sortEntries_eq_map]
      exact hp.map _
    simp only [sortParams]
    congr 1
    have hABperm : (List.insertionSort entryLe (sortEntries l₁)).Perm
        (List.insertionSort entryLe (sortEntries l₂)) :=
      (List.perm_insertionSort _ _).trans
        (hpm.trans (List.perm_insertionSort _ _).symm)
    have hN1 : ((List.insertionSort entryLe (sortEntries l₁)).map Prod.fst).Nodup := by
      have h2 : ((sortEntries l₁).map Prod.fst).Nodup := by
        rw [map_fst_sortEntries]
        exact (keyNodup_iff _).mp hkN
      exact (((List.perm_insertionSort entryLe (sortEntries l₁)).map
        Prod.fst).nodup_iff).mpr h2
    have hN2 : ((List.insertionSort entryLe (sortEntries l₂)).map Prod.fst).Nodup := by
      have hfst2 : (l₂.map Prod.fst).Nodup := by
        have hlm : (lm.map Prod.fst).Nodup := by
          rw [← map_fst_eq_of_zip l₁ lm hlen hkeys]
          exact (keyNodup_iff _).mp hkN
        exact ((hp.map Prod.fst).nodup_iff).mp hlm
      have h2 : ((sortEntries l₂).map Prod.fst).Nodup := by
        rw [map_fst_sortEntries]
        exact hfst2
      exact (((List.perm_insertionSort entryLe (sortEntries l₂)).map
        Prod.fst).nodup_iff).mpr h2
    exact List.eq_of_perm_of_sorted hABperm
      (sorted_entryLt_of_nodup _ (List.sorted_insertionSort _ _) hN1)
      (sorted_entryLt_of_nodup _ (List.sorted_insertionSort _ _) hN2)

/-- C1 (amended): `CacheManager.key` is invariant under reordering dict keys at
every nesting level reached through *dict values* — `_sort` recursively
canonicalizes exactly those — provided the dicts have distinct keys, as Python
dicts do.  (A dict nested inside a *list* value is not canonicalized, see
`c1_counterexample`.) -/
theorem c1_key_order_independence (A B : List (String × JVal))
    (hperm : ValPerm (.obj A) (.obj B)) (hnodup : jNodup (.obj A) = true) :
    CacheManager.key A = CacheManager.key B := by
  unfold CacheManager.key
  rw [sortParams_eq_of_valPerm (.obj A) (.obj B) hperm hnodup]

/-- First kwargs map of the C1 witness:
`{"b": 1, "a": {"y": 2, "x": 3}}`. -/
def wA : List (String × JVal) :=
  [("b", .num 1), ("a", .obj [("y", .num 2), ("x", .num 3)])]

/-- Second kwargs map of the C1 witness — the same map with both nesting levels
reordered: `{"a": {"x": 3, "y": 2}, "b": 1}`. -/
def wB : List (String × JVal) :=
  [("a", .obj [("x", .num 3), ("y", .num 2)]), ("b", .num 1)]

/-- Witness for `c1_key_order_independence`: two concrete kwargs maps that
differ only in key order (at the top level and inside a nested dict value)
receive the same digest. -/
theorem c1_key_order_independence_witness :
    CacheManager.key wA = CacheManager.key wB := by
  apply c1_key_order_independence wA wB ?_ (by decide)
  apply ValPerm.obj wA
    [("b", .num 1), ("a", .obj [("x", .num 3), ("y", .num 2)])] wB rfl (by decide)
  · intro pr hpr
    simp only [wA, List.zip_cons_cons, List.zip_nil_left, List.mem_cons,
      List.not_mem_nil, or_false] at hpr
    rcases hpr with rfl | rfl
    · exact ValPerm.num 1
    · apply ValPerm.obj [("y", .num 2), ("x", .num 3)]
        [("y", .num 2), ("x", .num 3)] [("x", .num 3), ("y", .num 2)]
        rfl (by decide)
      · intro pr2 hpr2
        simp only [List.zip_cons_cons, List.zip_nil_left, List.mem_cons,
          List.not_mem_nil, or_false] at hpr2
        rcases hpr2 with rfl | rfl
        · exact ValPerm.num 2
        · exact ValPerm.num 3
      · exact List.Perm.swap ("x", JVal.num 3) ("y", JVal.num 2) []
  · exact List.Perm.swap ("a", JVal.obj [("x", .num 3), ("y", .num 2)])
      ("b", JVal.num 1) []

/-- First kwargs map of the C1 counterexample:
`{"a": [{"x": 1, "y": 2}]}` — the inner dict sits inside a *list* value. -/
def cxA : List (String × JVal) :=
  [("a", .arr [.obj [("x", .num 1), ("y", .num 2)]])]

/-- Second kwargs map of the C1 counterexample: the same map with the keys of
the dict inside the list reordered, `{"a": [{"y": 2, "x": 1}]}`. -/
def cxB : List (String × JVal) :=
  [("a", .arr [.obj [("y", .num 2), ("x", .num 1)]])]

/-- C1 counterexample: `cxA` and `cxB` differ only in the ordering of keys
inside a map (at nesting depth 2, below a list value), all dict keys are
distinct, yet `CacheManager.key` gives them different digests: `_sort` does not
descend into list values, so `json.dumps` serializes the inner dict in its
insertion order.  This refutes the claim for arbitrary nesting. -/
theorem c1_counterexample :
    KeyReorder (.obj cxA) (.obj cxB) ∧
      jNodup (.obj cxA) = true ∧ jNodup (.obj cxB) = true ∧
      CacheManager.key cxA ≠ CacheManager.key cxB := by
  refine ⟨?_, by decide, by decide, by decide⟩
  apply KeyReorder.obj cxA cxB cxB rfl (by decide) ?_ (List.Perm.refl cxB)
  intro pr hpr
  simp only [cxA, cxB, List.zip_cons_cons, List.zip_nil_left, List.mem_cons,
    List.not_mem_nil, or_false] at hpr
  subst hpr
  apply KeyReorder.arr [.obj [("x", .num 1), ("y", .num 2)]]
    [.obj [("y", .num 2), ("x", .num 1)]] rfl
  intro pr2 hpr2
  simp only [List.zip_cons_cons, List.zip_nil_left, List.mem_cons,
    List.not_mem_nil, or_false] at hpr2
  subst hpr2
  apply KeyReorder.obj [("x", .num 1), ("y", .num 2)]
    [("x", .num 1), ("y", .num 2)] [("y", .num 2), ("x", .num 1)] rfl (by decide)
  · intro pr3 hpr3
    simp only [List.zip_cons_cons, List.zip_nil_left, List.mem_cons,
      List.not_mem_nil, or_false] at hpr3
    rcases hpr3 with rfl | rfl
    · exact KeyReorder.num 1
    · exact KeyReorder.num 2
  · exact List.Perm.swap ("y", JVal.num 2) ("x", JVal.num 1) []

/-! ## `SuperFactory`: class model and `find_descendants` -/

mutual
/-- A Python class as the factory's reflection sees it: its `__name__`, its
direct `__subclasses__()`, the `co_varnames` of its `__init__` (the tuple of
argument names followed by local-variable names, src/lib/core/helpers.py:97)
and its `__init__.__annotations__` (src/lib/core/helpers.py:98). -/
inductive PyClass where
  | mk : String → List PyClass → List String → List (String × PyAnn) → PyClass

/-- A constructor-parameter annotation: either a `typing.Dict[...]` object
(whose `_name` attribute is `"Dict"`, src/lib/core/helpers.py:111) or any other
annotation, used as the instantiator of a recursive construction.
(`Optional[X]` annotations are unwrapped to `X` by src/lib/core/helpers.py:80-82
and are modelled as `classAnn X`.) -/
inductive PyAnn where
  | dictAnn : PyAnn
  | classAnn : PyClass → PyAnn
end

/-- `__name__`. -/
def PyClass.name : PyClass → String
  | .mk n _ _ _ => n

/-- `__subclasses__()`. -/
def PyClass.children : PyClass → List PyClass
  | .mk _ c _ _ => c

/-- `__init__.__code__.co_varnames`. -/
def PyClass.coVarnames : PyClass → List String
  | .mk _ _ p _ => p

/-- `__init__.__annotations__`. -/
def PyClass.anns : PyClass → List (String × PyAnn)
  | .mk _ _ _ a => a

/-- Python `d[k]` on a string-keyed dict (first match; dict keys are unique). -/
def dictLookup {α : Type} : List (String × α) → String → Option α
  | [], _ => none
  | (k, v) :: t, key => if k = key then some v else dictLookup t key

/-- Python dict insertion `d[k] = v`: an existing key keeps its position and is
overwritten, a new key is appended. -/
def dictInsert {α : Type} (d : List (String × α)) (k : String) (v : α) :
    List (String × α) :=
  if d.any (fun p => p.1 == k) then
    d.map (fun p => if p.1 = k then (k, v) else p)
  else d ++ [(k, v)]

/-- Python `{**d1, **d2}`. -/
def dictMerge {α : Type} (d1 d2 : List (String × α)) : List (String × α) :=
  d2.foldl (fun acc p => dictInsert acc p.1 p.2) d1

mutual
/-- Embeds `SuperFactory.find_descendants` (src/lib/core/helpers.py:34-44): walk
`parent.__subclasses__()` in order, record every child under its `__name__`,
and, for a child that itself has subclasses, merge in its recursively found
descendants (`{**descendants, **find_descendants(child)}`). -/
def SuperFactory.findDescendants : PyClass → List (String × PyClass)
  | .mk _ children _ _ => findDescAux children []

/-- The `for child in parent.__subclasses__()` loop of `find_descendants`, with
its accumulator dict. -/
def findDescAux : List PyClass → List (String × PyClass) → List (String × PyClass)
  | [], acc => acc
  | child :: rest, acc =>
    findDescAux rest
      (if child.children.length > 0 then
        dictMerge (dictInsert acc child.name child)
          (SuperFactory.findDescendants child)
      else dictInsert acc child.name child)
end

/-- `d` is a (possibly indirect) subclass of `p` — what "transitive concrete
descendant" denotes for this factory. -/
inductive IsDescendant : PyClass → PyClass → Prop where
  | direct (p c : PyClass) : c ∈ p.children → IsDescendant p c
  | step (p c d : PyClass) : c ∈ p.children → IsDescendant c d → IsDescendant p d

theorem dictLookup_some_mem {α : Type} :
    ∀ (d : List (String × α)) (k : String) (v : α),
      dictLookup d k = some v → (k, v) ∈ d := by
  intro d
  induction d with
  | nil => intro k v h; exact absurd h (by simp [dictLookup])
  | cons a t ih =>
    obtain ⟨k0, v0⟩ := a
    intro k v h
    rw [dictLookup] at h
    by_cases hk : k0 = k
    · rw [if_pos hk] at h
      have hv : v0 = v := by injection h
      subst hk
      subst hv
      exact List.mem_cons_self _ _
    · rw [if_neg hk] at h
      exact List.mem_cons_of_mem _ (ih k v h)

theorem dictLookup_none_not_mem {α : Type} :
    ∀ (d : List (String × α)) (k : String),
      dictLookup d k = none → k ∉ d.map Prod.fst := by
  intro d
  induction d with
  | nil => intro k _ h; exact absurd h (List.not_mem_nil k)
  | cons a t ih =>
    obtain ⟨k0, v0⟩ := a
    intro k h hmem
    rw [dictLookup] at h
    by_cases hk : k0 = k
    · rw [if_pos hk] at h
      exact Option.noConfusion h
    · rw [if_neg hk] at h
      rcases List.mem_cons.mp hmem with heq | hmem'
      · exact hk heq.symm
      · exact ih k h hmem'

theorem mem_dictInsert {α : Type} (d : List (String × α)) (k : String) (v : α)
    (pr : String × α) (h : pr ∈ dictInsert d k v) : pr ∈ d ∨ pr = (k, v) := by
  unfold dictInsert at h
  split_ifs at h
  · rcases List.mem_map.mp h with ⟨q, hq, hpr⟩
    by_cases hqk : q.1 = k
    · rw [if_pos hqk] at hpr
      exact Or.inr hpr.symm
    · rw [if_neg hqk] at hpr
      exact Or.inl (hpr ▸ hq)
  · rcases List.mem_append.mp h with h1 | h1
    · exact Or.inl h1
    · exact Or.inr (List.mem_singleton.mp h1)

theorem mem_dictMerge {α : Type} :
    ∀ (d2 d1 : List (String × α)) (pr : String × α),
      pr ∈ dictMerge d1 d2 → pr ∈ d1 ∨ pr ∈ d2 := by
  intro d2
  induction d2 with
  | nil => intro d1 pr h; exact Or.inl h
  | cons q t ih =>
    intro d1 pr h
    have h2 : pr ∈ dictMerge (dictInsert d1 q.1 q.2) t := h
    rcases ih _ pr h2 with h3 | h3
    · rcases mem_dictInsert d1 q.1 q.2 pr h3 with h4 | h4
      · exact Or.inl h4
      · refine Or.inr (List.mem_cons.mpr (Or.inl ?_))
        rw [h4]
    · exact Or.inr (List.mem_cons_of_mem q h3)

theorem mem_keys_dictInsert_self {α : Type} (d : List (String × α)) (k : String)
    (v : α) : k ∈ (dictInsert d k v).map Prod.fst := by
  unfold dictInsert
  split_ifs with h
  · rcases List.any_eq_true.mp h with ⟨q, hq, hqk⟩
    have hq1 : q.1 = k := by simpa using hqk
    apply List.mem_map.mpr
    refine ⟨(k, v), ?_, rfl⟩
    apply List.mem_map.mpr
    exact ⟨q, hq, by rw [if_pos hq1]⟩
  · simp

theorem mem_keys_dictInsert_mono {α : Type} (d : List (String × α)) (k a : String)
    (v : α) (h : a ∈ d.map Prod.fst) : a ∈ (dictInsert d k v).map Prod.fst := by
  unfold dictInsert
  rcases List.mem_map.mp h with ⟨q, hq, ha⟩
  split_ifs
  · apply List.mem_map.mpr
    refine ⟨if q.1 = k then (k, v) else q, List.mem_map_of_mem _ hq, ?_⟩
    by_cases hqk : q.1 = k
    · rw [if_pos hqk]
      rw [← ha, hqk]
    · rw [if_neg hqk]
      exact ha
  · apply List.mem_map.mpr
    exact ⟨q, List.mem_append_left _ hq, ha⟩

theorem mem_keys_dictMerge_left {α : Type} :
    ∀ (d2 d1 : List (String × α)) (a : String),
      a ∈ d1.map Prod.fst → a ∈ (dictMerge d1 d2).map Prod.fst := by
  intro d2
  induction d2 with
  | nil => intro d1 a h; exact h
  | cons q t ih =>
    intro d1 a h
    exact ih (dictInsert d1 q.1 q.2) a (mem_keys_dictInsert_mono d1 q.1 a q.2 h)

theorem mem_keys_dictMerge_right {α : Type} :
    ∀ (d2 d1 : List (String × α)) (a : String),
      a ∈ d2.map Prod.fst → a ∈ (dictMerge d1 d2).map Prod.fst := by
  intro d2
  induction d2 with
  | nil => intro d1 a h; exact absurd h (by simp)
  | cons q t ih =>
    intro d1 a h
    rw [List.map_cons] at h
    rcases List.mem_cons.mp h with heq | hmem
    · have : a ∈ (dictInsert d1 q.1 q.2).map Prod.fst := by
        rw [show a = q.1 from heq]
        exact mem_keys_dictInsert_self d1 q.1 q.2
      exact mem_keys_dictMerge_left t (dictInsert d1 q.1 q.2) a this
    · exact ih (dictInsert d1 q.1 q.2) a hmem

theorem findDescAux_keys_mono :
    ∀ (l : List PyClass) (acc : List (String × PyClass)) (a : String),
      a ∈ acc.map Prod.fst → a ∈ (findDescAux l acc).map Prod.fst := by
  intro l
  induction l with
  | nil => intro acc a h; exact h
  | cons child rest ih =>
    intro acc a h
    rw [findDescAux]
    apply ih
    split_ifs
    · exact mem_keys_dictMerge_left _ _ a (mem_keys_dictInsert_mono acc child.name a child h)
    · exact mem_keys_dictInsert_mono acc child.name a child h

theorem findDescAux_child_key :
    ∀ (l : List PyClass) (acc : List (String × PyClass)) (c : PyClass),
      c ∈ l → c.name ∈ (findDescAux l acc).map Prod.fst := by
  intro l
  induction l with
  | nil => intro acc c h; exact absurd h (List.not_mem_nil c)
  | cons child rest ih =>
    intro acc c h
    rcases List.mem_cons.mp h with rfl | h'
    · rw [findDescAux]
      apply findDescAux_keys_mono
      split_ifs
      · exact mem_keys_dictMerge_left _ _ _ (mem_keys_dictInsert_self acc c.name c)
      · exact mem_keys_dictInsert_self acc c.name c
    · rw [findDescAux]
      exact ih _ c h'

theorem findDescAux_desc_key :
    ∀ (l : List PyClass) (acc : List (String × PyClass)) (c : PyClass) (a : String),
      c ∈ l → a ∈ (SuperFactory.findDescendants c).map Prod.fst →
      a ∈ (findDescAux l acc).map Prod.fst := by
  intro l
  induction l with
  | nil => intro acc c a h _; exact absurd h (List.not_mem_nil c)
  | cons child rest ih =>
    intro acc c a h ha
    rcases List.mem_cons.mp h with rfl | h'
    · rw [findDescAux]
      apply findDescAux_keys_mono
      split_ifs with hguard
      · exact mem_keys_dictMerge_right _ _ a ha
      · exfalso
        have hchildren : c.children = [] := by
          cases hcc : c.children with
          | nil => rfl
          | cons x xs => exact absurd (by rw [hcc]; simp) hguard
        have : SuperFactory.findDescendants c = [] := by
          cases c with
          | mk nm ch pa an =>
            have : ch = [] := by simpa [PyClass.children] using hchildren
            rw [this, SuperFactory.findDescendants, findDescAux]
        rw [this] at ha
        exact absurd ha (by simp)
    · rw [findDescAux]
      exact ih _ c a h' ha

/-- Every (possibly indirect) descendant's name is among the keys
`find_descendants` enumerates. -/
theorem findDescendants_keys_complete (p cls : PyClass)
    (h : IsDescendant p cls) :
    cls.name ∈ (SuperFactory.findDescendants p).map Prod.fst := by
  induction h with
  | direct p c hc =>
    cases p with
    | mk nm ch pa an =>
      rw [SuperFactory.findDescendants]
      exact findDescAux_child_key ch [] c (by simpa [PyClass.children] using hc)
  | step p c d hc _ ih =>
    cases p with
    | mk nm ch pa an =>
      rw [SuperFactory.findDescendants]
      exact findDescAux_desc_key ch [] c d.name (by simpa [PyClass.children] using hc) ih

theorem findDescAux_good (p : PyClass)
    (hrec : ∀ c ∈ p.children, ∀ pr ∈ SuperFactory.findDescendants c,
      pr.2.name = pr.1 ∧ IsDescendant c pr.2) :
    ∀ l, (∀ c ∈ l, c ∈ p.children) →
    ∀ acc, (∀ pr ∈ acc, pr.2.name = pr.1 ∧ IsDescendant p pr.2) →
    ∀ pr ∈ findDescAux l acc, pr.2.name = pr.1 ∧ IsDescendant p pr.2 := by
  intro l
  induction l with
  | nil => intro _ acc hacc pr hpr; exact hacc pr hpr
  | cons child rest ih =>
    intro hl acc hacc pr hpr
    rw [findDescAux] at hpr
    have hchild : child ∈ p.children := hl child (List.mem_cons_self child rest)
    have hacc1 : ∀ q ∈ dictInsert acc child.name child,
        q.2.name = q.1 ∧ IsDescendant p q.2 := by
      intro q hq
      rcases mem_dictInsert acc child.name child q hq with h1 | h1
      · exact hacc q h1
      · rw [h1]
        exact ⟨rfl, IsDescendant.direct p child hchild⟩
    have hacc2 : ∀ q ∈ (if child.children.length > 0 then
        dictMerge (dictInsert acc child.name child)
          (SuperFactory.findDescendants child)
      else dictInsert acc child.name child),
        q.2.name = q.1 ∧ IsDescendant p q.2 := by
      intro q hq
      split_ifs at hq
      · rcases mem_dictMerge _ _ q hq with h1 | h1
        · exact hacc1 q h1
        · obtain ⟨hn, hd⟩ := hrec child hchild q h1
          exact ⟨hn, IsDescendant.step p child q.2 hchild hd⟩
      · exact hacc1 q hq
    exact ih (fun c hc => hl c (List.mem_cons_of_mem child hc)) _ hacc2 pr hpr

/-- Every entry `find_descendants` returns is keyed by the recorded class's
`__name__`, and that class is a (possibly indirect) descendant of the parent. -/
theorem findDescendants_mem_good :
    ∀ (n : Nat) (p : PyClass), sizeOf p ≤ n →
      ∀ pr ∈ SuperFactory.findDescendants p,
        pr.2.name = pr.1 ∧ IsDescendant p pr.2 := by
  intro n
  induction n with
  | zero =>
    intro p hp
    exfalso
    cases p with
    | mk nm ch pa an => simp_arith at hp
  | succ n ih =>
    intro p hp
    have hrec : ∀ c ∈ p.children, ∀ pr ∈ SuperFactory.findDescendants c,
        pr.2.name = pr.1 ∧ IsDescendant c pr.2 := by
      intro c hc
      apply ih c
      have h1 : sizeOf c < sizeOf p.children := List.sizeOf_lt_of_mem hc
      have h2 : sizeOf p.children < sizeOf p := by
        cases p with
        | mk nm ch pa an => simp [PyClass.children]; omega
      omega
    intro pr hpr
    cases p with
    | mk nm ch pa an =>
      rw [SuperFactory.findDescendants] at hpr
      exact findDescAux_good (.mk nm ch pa an) hrec ch
        (by intro c hc; simpa [PyClass.children] using hc) [] (by simp) pr hpr

/-! ## `SuperFactory.create` -/

/-- Capitalize the first character of one snake-case piece. -/
def capFirst : List Char → List Char
  | [] => []
  | c :: t => c.toUpper :: t

/-- Split on underscores. -/
def splitUnd : List Char → List (List Char)
  | [] => [[]]
  | c :: t =>
    if c = '_' then [] :: splitUnd t
    else
      match splitUnd t with
      | [] => [[c]]
      | p :: ps => (c :: p) :: ps

/-- `humps.pascalize` on the snake-case names this factory builds
(src/lib/core/helpers.py:86): split on underscores and capitalize each piece. -/
def pascalize (s : String) : String :=
  String.mk ((splitUnd s.data).map capFirst).flatten

/-- Python `s.replace(pat, "")` — every occurrence of `pat` removed, scanning
left to right (src/lib/core/helpers.py:84 uses it to strip `"Abstract"` from
the base type's name).  The fuel argument, instantiated with the length of the
subject, makes the recursion structural. -/
def removeAllAux : Nat → List Char → List Char → List Char
  | 0, _, l => l
  | _ + 1, _, [] => []
  | fuel + 1, pat, c :: t =>
    if chPre pat (c :: t) && !pat.isEmpty then
      removeAllAux fuel pat ((c :: t).drop pat.length)
    else c :: removeAllAux fuel pat t

/-- Python `s.replace(pat, "")`. -/
def strRemoveAll (s pat : String) : String :=
  String.mk (removeAllAux s.data.length pat.data s.data)

/-- Python `"." in s`. -/
def hasDot (s : String) : Bool :=
  s.data.any (fun c => c == '.')

/-- A Python value inside a `dynamic_parameters` dict: a string, an integer, a
nested dict, or a constructed object (recorded as its class name together with
the keyword options its constructor was invoked with). -/
inductive PVal where
  | pstr : String → PVal
  | pint : Int → PVal
  | pdict : List (String × PVal) → PVal
  | pinst : String → List (String × PVal) → PVal

/-- Whether a value is a plain dict (`type(option_value) is dict`,
src/lib/core/helpers.py:110). -/
def PVal.isDict : PVal → Bool
  | .pdict _ => true
  | _ => false

/-- The ways `SuperFactory.create` fails.  `dependencyNotFound` and
`unknownOption` carry the payload of the two `ReflectionError`s raised at
src/lib/core/helpers.py:90 and :102; the remaining constructors stand for the
exceptions Python itself would raise (failed import in `reflect`, `None`
instantiator, a non-string `"type"` value, a value that is not a dict). -/
inductive FactoryError where
  | dependencyNotFound : String → List String → FactoryError
  | unknownOption : String → String → FactoryError
  | reflectionFailed : String → FactoryError
  | noInstantiator : FactoryError
  | typeNotString : FactoryError
  | paramsNotDict : FactoryError
deriving DecidableEq

/-- `__init__.__annotations__[k]`. -/
def PyClass.annLookup (cls : PyClass) (k : String) : Option PyAnn :=
  dictLookup cls.anns k

/-- The tail of `create` after the options loop (src/lib/core/helpers.py:117-121):
merge `loaded_parameters` over the processed options and invoke the resolved
constructor, which the embedding records as a `PVal.pinst` value. -/
def mkInstance (cls : PyClass) (lp : Option (List (String × PVal)))
    (r : Except FactoryError (List (String × PVal))) : Except FactoryError PVal :=
  match r with
  | .error e => .error e
  | .ok dp2 =>
    .ok (.pinst cls.name (match lp with
      | some l => dictMerge dp2 l
      | none => dp2))

mutual
/-- Embeds `SuperFactory.create` (src/lib/core/helpers.py:46-121) applied to a
`dynamic_parameters` dict (the `PVal.pdict` case; Python would fail on anything
else).  The flow follows the source: if a `"type"` option is present it is
popped and resolved — a dotted path through `reflect` (the module environment
`env`), a short variant name through `find_descendants` of the instantiator
(after the `Optional` unwrap of lines 80-82, which the `PyClass`-valued
instantiator model absorbs); then every remaining option is validated against
`co_varnames` and dict-valued options with a non-`Dict` annotation are
constructed recursively; finally `loaded_parameters` is merged in and the
constructor invoked, which the embedding records as a `PVal.pinst` value.
`create` itself works on a copy, so this value-level function is the faithful
result semantics; the heap-level `createHeap` below covers the mutation
behavior. -/
def SuperFactory.createVal (env : String → Option PyClass) :
    Option PyClass → PVal → Option (List (String × PVal)) →
    Except FactoryError PVal
  | inst, .pdict dp, lp =>
    match dictLookup dp "type" with
    | some (.pstr t) =>
      if hasDot t then
        match env t with
        | some cls => mkInstance cls lp (processOptions env cls dp)
        | none => .error (.reflectionFailed t)
      else
        match inst with
        | none => .error .noInstantiator
        | some parent =>
          match dictLookup (SuperFactory.findDescendants parent)
              (pascalize (t ++ "_" ++ strRemoveAll parent.name "Abstract")) with
          | none => .error (.dependencyNotFound
              (pascalize (t ++ "_" ++ strRemoveAll parent.name "Abstract"))
              ((SuperFactory.findDescendants parent).map Prod.fst))
          | some cls => mkInstance cls lp (processOptions env cls dp)
    | some _ => .error .typeNotString
    | none =>
      match inst with
      | none => .error .noInstantiator
      | some cls => mkInstance cls lp (processOptions env cls dp)
  | _, _, _ => .error .paramsNotDict

/-- The `for option_name, option_value in dynamic_parameters.items()` loop of
`create` (src/lib/core/helpers.py:100-115), run on the items of the dict before
the pop (the popped `"type"` key is skipped, which is the same traversal): an
option whose name is not among the constructor's `co_varnames` raises; an
option without a type hint is kept as is; a dict-valued option whose annotation
is not `typing.Dict` is replaced by the recursively constructed object. -/
def processOptions (env : String → Option PyClass) (cls : PyClass) :
    List (String × PVal) → Except FactoryError (List (String × PVal))
  | [] => .ok []
  | (k, v) :: rest =>
    if k == "type" then processOptions env cls rest
    else if cls.coVarnames.contains k then
      match cls.annLookup k with
      | none =>
        match processOptions env cls rest with
        | .error e => .error e
        | .ok r => .ok ((k, v) :: r)
      | some .dictAnn =>
        match processOptions env cls rest with
        | .error e => .error e
        | .ok r => .ok ((k, v) :: r)
      | some (.classAnn c2) =>
        if v.isDict then
          match SuperFactory.createVal env (some c2) v none with
          | .error e => .error e
          | .ok newv =>
            match processOptions env cls rest with
            | .error e => .error e
            | .ok r => .ok ((k, newv) :: r)
        else
          match processOptions env cls rest with
          | .error e => .error e
          | .ok r => .ok ((k, v) :: r)
    else .error (.unknownOption cls.name k)
end

/-- `SuperFactory.create(instantiator, dynamic_parameters, loaded_parameters)`. -/
def SuperFactory.create (env : String → Option PyClass) (inst : Option PyClass)
    (dp : List (String × PVal)) (lp : Option (List (String × PVal))) :
    Except FactoryError PVal :=
  SuperFactory.createVal env inst (.pdict dp) lp

theorem dictLookup_eq_none_of_keys {α : Type} :
    ∀ (d : List (String × α)) (k : String),
      (∀ kv ∈ d, kv.1 ≠ k) → dictLookup d k = none := by
  intro d
  induction d with
  | nil => intro k _; rfl
  | cons a t ih =>
    obtain ⟨k0, v0⟩ := a
    intro k h
    rw [dictLookup,
      if_neg (h (k0, v0) (List.mem_cons_self _ _)),
      ih k (fun kv hkv => h kv (List.mem_cons_of_mem _ hkv))]

/-- C3: for an abstract base type (named `Abstract` followed by the base name,
with no further occurrence of `Abstract`) and a short (dot-free) variant name in
the `"type"` option, `SuperFactory.create` selects the transitive descendant
registered under the pascalized combination of the variant name and the base
name, constructs it, and — when no descendant carries that name — raises the
resolution error enumerating every available descendant name; the enumerated
names are exactly the names of the transitive descendants of the base type. -/
theorem c3_factory_resolution (env : String → Option PyClass) (parent : PyClass)
    (variant tailName : String) (lp : Option (List (String × PVal)))
    (hdot : hasDot variant = false)
    (_hname : parent.name = "Abstract" ++ tailName)
    (hrepl : strRemoveAll parent.name "Abstract" = tailName) :
    (∀ cls, dictLookup (SuperFactory.findDescendants parent)
        (pascalize (variant ++ "_" ++ tailName)) = some cls →
      SuperFactory.create env (some parent) [("type", .pstr variant)] lp =
          .ok (.pinst cls.name (match lp with
            | some l => dictMerge [] l
            | none => [])) ∧
        IsDescendant parent cls ∧
        cls.name = pascalize (variant ++ "_" ++ tailName)) ∧
    (dictLookup (SuperFactory.findDescendants parent)
        (pascalize (variant ++ "_" ++ tailName)) = none →
      ∀ dp, SuperFactory.create env (some parent)
          (("type", .pstr variant) :: dp) lp =
        .error (.dependencyNotFound (pascalize (variant ++ "_" ++ tailName))
          ((SuperFactory.findDescendants parent).map Prod.fst))) ∧
    (∀ k, k ∈ (SuperFactory.findDescendants parent).map Prod.fst ↔
      ∃ cls, IsDescendant parent cls ∧ cls.name = k) := by
  have hstep : ∀ dp : List (String × PVal),
      SuperFactory.create env (some parent) (("type", .pstr variant) :: dp) lp =
        (match dictLookup (SuperFactory.findDescendants parent)
            (pascalize (variant ++ "_" ++ tailName)) with
         | none => .error (.dependencyNotFound
             (pascalize (variant ++ "_" ++ tailName))
             ((SuperFactory.findDescendants parent).map Prod.fst))
         | some cls =>
             mkInstance cls lp
               (processOptions env cls (("type", .pstr variant) :: dp))) := by
    intro dp
    simp only [SuperFactory.create, SuperFactory.createVal, dictLookup]
    simp [hdot, hrepl]
  refine ⟨?_, ?_, ?_⟩
  · intro cls hcls
    refine ⟨?_, ?_, ?_⟩
    · rw [hstep [], hcls]
      simp [processOptions, mkInstance]
    · exact (findDescendants_mem_good (sizeOf parent) parent le_rfl _
        (dictLookup_some_mem _ _ _ hcls)).2
    · exact (findDescendants_mem_good (sizeOf parent) parent le_rfl _
        (dictLookup_some_mem _ _ _ hcls)).1
  · intro hnone dp
    rw [hstep dp, hnone]
  · intro k
    constructor
    · intro hk
      rcases List.mem_map.mp hk with ⟨pr, hpr, rfl⟩
      obtain ⟨hn, hd⟩ := findDescendants_mem_good (sizeOf parent) parent le_rfl pr hpr
      exact ⟨pr.2, hd, hn⟩
    · rintro ⟨cls, hd, rfl⟩
      exact findDescendants_keys_complete parent cls hd

/-- Concrete descendant `FooBar` for the C3/C7 witnesses. -/
def clsFooBar : PyClass := .mk "FooBar" [] ["self", "x"] []

/-- Concrete descendant `BazBar` for the C3 witness. -/
def clsBazBar : PyClass := .mk "BazBar" [] ["self"] []

/-- Concrete abstract base `AbstractBar` with descendants
`{FooBar, BazBar}` for the C3 witness. -/
def clsAbstractBar : PyClass := .mk "AbstractBar" [clsFooBar, clsBazBar] ["self"] []

/-- A module environment with no symbols (the witnesses use short variant
names only). -/
def envEmpty : String → Option PyClass := fun _ => none

/-- Witness for `c3_factory_resolution`: under base `AbstractBar` with
descendants `{FooBar, BazBar}`, variant `"foo"` yields a `FooBar` instance and
unknown variant `"qux"` fails with an error enumerating `FooBar` and `BazBar`. -/
theorem c3_factory_resolution_witness :
    (SuperFactory.create envEmpty (some clsAbstractBar)
        [("type", .pstr "foo")] none = .ok (.pinst clsFooBar.name []) ∧
      IsDescendant clsAbstractBar clsFooBar ∧
      clsFooBar.name = pascalize ("foo" ++ "_" ++ "Bar")) ∧
    SuperFactory.create envEmpty (some clsAbstractBar)
        [("type", .pstr "qux")] none =
      .error (.dependencyNotFound "QuxBar" ["FooBar", "BazBar"]) :=
  ⟨(c3_factory_resolution envEmpty clsAbstractBar "foo" "Bar" none
      rfl rfl rfl).1 clsFooBar rfl,
    (c3_factory_resolution envEmpty clsAbstractBar "qux" "Bar" none
      rfl rfl rfl).2.1 rfl []⟩

/-- The first option name, in iteration order, that the resolved class's
`co_varnames` does not contain. -/
def firstBadKey (cls : PyClass) : List (String × PVal) → Option String
  | [] => none
  | (k, _) :: rest =>
    if cls.coVarnames.contains k then firstBadKey cls rest else some k

/-- C7: for a parameter map without a discriminator and without dict-valued
options (those undergo recursive construction, whose own validation this claim
covers at the nested level), `SuperFactory.create` fails with a
`ReflectionError` naming the resolved type and the offending option if and only
if some option name is not a constructor parameter name (a `co_varnames`
entry) of the resolved type — the error names the first such option; otherwise
construction proceeds with every supplied parameter, merged with the loaded
parameters. -/
theorem c7_option_validation (env : String → Option PyClass) (cls : PyClass)
    (dp : List (String × PVal)) (lp : Option (List (String × PVal)))
    (htype : ∀ kv ∈ dp, kv.1 ≠ "type")
    (hnodict : ∀ kv ∈ dp, kv.2.isDict = false) :
    match firstBadKey cls dp with
    | some k => SuperFactory.create env (some cls) dp lp =
        .error (.unknownOption cls.name k)
    | none => SuperFactory.create env (some cls) dp lp =
        .ok (.pinst cls.name (match lp with
          | some l => dictMerge dp l
          | none => dp)) := by
  have hproc : (match firstBadKey cls dp with
      | some k => processOptions env cls dp = .error (.unknownOption cls.name k)
      | none => processOptions env cls dp = .ok dp) := by
    induction dp with
    | nil => exact rfl
    | cons kv rest ih =>
      obtain ⟨k, v⟩ := kv
      have hk : k ≠ "type" := htype (k, v) (List.mem_cons_self _ _)
      have hkb : (k == "type") = false := by
        simp [hk]
      have hv : v.isDict = false := hnodict (k, v) (List.mem_cons_self _ _)
      have ih2 := ih (fun kv2 h2 => htype kv2 (List.mem_cons_of_mem _ h2))
        (fun kv2 h2 => hnodict kv2 (List.mem_cons_of_mem _ h2))
      by_cases hc : cls.coVarnames.contains k = true
      · have hcm : k ∈ cls.coVarnames := by simpa using hc
        rw [show firstBadKey cls ((k, v) :: rest) = firstBadKey cls rest by
          rw [firstBadKey, if_pos hc]]
        cases hfb : firstBadKey cls rest with
        | some badk =>
          rw [hfb] at ih2
          cases hann : cls.annLookup k with
          | none => simp [processOptions, hkb, hcm, hann, hv, ih2]
          | some ann =>
            cases ann with
            | dictAnn => simp [processOptions, hkb, hcm, hann, hv, ih2]
            | classAnn c2 => simp [processOptions, hkb, hcm, hann, hv, ih2]
        | none =>
          rw [hfb] at ih2
          cases hann : cls.annLookup k with
          | none => simp [processOptions, hkb, hcm, hann, hv, ih2]
          | some ann =>
            cases ann with
            | dictAnn => simp [processOptions, hkb, hcm, hann, hv, ih2]
            | classAnn c2 => simp [processOptions, hkb, hcm, hann, hv, ih2]
      · have hcm : k ∉ cls.coVarnames := by simpa using hc
        rw [show firstBadKey cls ((k, v) :: rest) = some k by
          rw [firstBadKey, if_neg hc]]
        simp [processOptions, hkb, hcm]
  have hlook : dictLookup dp "type" = none :=
    dictLookup_eq_none_of_keys dp "type" htype
  have hcreate : SuperFactory.create env (some cls) dp lp =
      mkInstance cls lp (processOptions env cls dp) := by
    simp only [SuperFactory.create, SuperFactory.createVal, hlook]
  cases hfb : firstBadKey cls dp with
  | some k =>
    rw [hfb] at hproc
    rw [hcreate, hproc]
    rfl
  | none =>
    rw [hfb] at hproc
    rw [hcreate, hproc]
    rfl

/-- Witness for `c7_option_validation`: `FooBar` accepts option `x`, so
construction proceeds with it; option `bad` is rejected with an error naming
`FooBar` and `bad`. -/
theorem c7_option_validation_witness :
    SuperFactory.create envEmpty (some clsFooBar) [("x", .pint 5)] none =
        .ok (.pinst clsFooBar.name [("x", .pint 5)]) ∧
      SuperFactory.create envEmpty (some clsFooBar)
          [("x", .pint 5), ("bad", .pstr "z")] none =
        .error (.unknownOption clsFooBar.name "bad") :=
  ⟨c7_option_validation envEmpty clsFooBar [("x", .pint 5)] none
      (by decide) (by decide),
    c7_option_validation envEmpty clsFooBar [("x", .pint 5), ("bad", .pstr "z")]
      none (by decide) (by decide)⟩

/-! ## `SuperFactory.create`, heap level: the caller's dict is never mutated -/

/-- A Python value as stored in a dict slot, at heap level: strings and numbers
are immediate, a dict-valued slot holds a *reference* to a dict object in the
heap, and a constructed instance records its class name and constructor
options. -/
inductive HVal where
  | hstr : String → HVal
  | hint : Int → HVal
  | href : Nat → HVal
  | hinst : String → List (String × HVal) → HVal

/-- The heap of dict objects: an allocation counter and a store mapping
addresses to dict contents. -/
structure Heap where
  next : Nat
  mem : List (Nat × List (String × HVal))

/-- Read the dict object at an address. -/
def lookupHeap (h : Heap) (a : Nat) : Option (List (String × HVal)) :=
  (h.mem.find? (fun p => p.1 == a)).map Prod.snd

/-- Allocate a fresh dict object (this is what `dynamic_parameters.copy()`
does: a new dict sharing the nested references). -/
def allocHeap (h : Heap) (entries : List (String × HVal)) : Heap × Nat :=
  (Heap.mk (h.next + 1) ((h.next, entries) :: h.mem), h.next)

/-- Overwrite the dict object at an address in place. -/
def writeHeap (h : Heap) (a : Nat) (entries : List (String × HVal)) : Heap :=
  Heap.mk h.next (h.mem.map (fun p => if p.1 = a then (a, entries) else p))

/-- `d.pop(k)`'s effect on the dict contents. -/
def hdictRemove (d : List (String × HVal)) (k : String) : List (String × HVal) :=
  d.filter (fun kv => !(kv.1 == k))

/-- `d[k] = v` on dict contents for a key already present (the options loop
only reassigns existing keys). -/
def hdictSet (d : List (String × HVal)) (k : String) (v : HVal) :
    List (String × HVal) :=
  d.map (fun kv => if kv.1 = k then (k, v) else kv)

/-- Every allocated address is below the allocation counter. -/
def heapWF (h : Heap) : Prop :=
  ∀ p ∈ h.mem, p.1 < h.next

instance (h : Heap) : Decidable (heapWF h) := by
  unfold heapWF
  infer_instance

mutual
/-- `SuperFactory.create` at heap level, keeping the dict mutations the Python
code performs explicit: the caller passes a *reference* `dpRef` to its
parameter dict; `create` first copies it (`dynamic_parameters.copy()`, a fresh
allocation sharing nested references), pops `"type"` from the copy, resolves
the type exactly as `createVal` does, runs the options loop writing recursively
constructed objects into the copy — nested `create` calls receive the shared
nested references and copy them in turn — and finally merges
`loaded_parameters` and invokes the constructor.  The fuel argument bounds the
traversal (Python's recursion limit bounds the real recursion); the frame
theorem below holds for every fuel. -/
def SuperFactory.createHeap (env : String → Option PyClass) :
    Nat → Option PyClass → Nat → Option (List (String × HVal)) → Heap →
    (Except FactoryError HVal) × Heap
  | 0, _, _, _, h => (.error .paramsNotDict, h)
  | fuel + 1, inst, dpRef, lp, h =>
    let entries := (lookupHeap h dpRef).getD []
    let alloc := allocHeap h entries
    match dictLookup entries "type" with
    | some tv =>
      let h2 := writeHeap alloc.1 alloc.2 (hdictRemove entries "type")
      match tv with
      | .hstr t =>
        if hasDot t then
          match env t with
          | some cls => createHeapBody env fuel cls alloc.2 lp h2
          | none => (.error (.reflectionFailed t), h2)
        else
          match inst with
          | none => (.error .noInstantiator, h2)
          | some parent =>
            match dictLookup (SuperFactory.findDescendants parent)
                (pascalize (t ++ "_" ++ strRemoveAll parent.name "Abstract")) with
            | none => (.error (.dependencyNotFound
                (pascalize (t ++ "_" ++ strRemoveAll parent.name "Abstract"))
                ((SuperFactory.findDescendants parent).map Prod.fst)), h2)
            | some cls => createHeapBody env fuel cls alloc.2 lp h2
      | _ => (.error .typeNotString, h2)
    | none =>
      match inst with
      | none => (.error .noInstantiator, alloc.1)
      | some cls => createHeapBody env fuel cls alloc.2 lp alloc.1

/-- The options loop and construction, on the copy at address `f`. -/
def createHeapBody (env : String → Option PyClass) :
    Nat → PyClass → Nat → Option (List (String × HVal)) → Heap →
    (Except FactoryError HVal) × Heap
  | 0, _, _, _, h => (.error .paramsNotDict, h)
  | fuel + 1, cls, f, lp, h =>
    match processHeap env fuel cls f ((lookupHeap h f).getD []) h with
    | (.error e, h2) => (.error e, h2)
    | (.ok _, h2) =>
      (.ok (.hinst cls.name (match lp with
        | some l => dictMerge ((lookupHeap h2 f).getD []) l
        | none => (lookupHeap h2 f).getD [])), h2)

/-- One pass over the items of the copy at `f`: validate each option name, and
replace dict-valued options having a non-`Dict` annotation by the recursively
constructed object, writing the result into the copy. -/
def processHeap (env : String → Option PyClass) :
    Nat → PyClass → Nat → List (String × HVal) → Heap →
    (Except FactoryError Unit) × Heap
  | 0, _, _, _, h => (.error .paramsNotDict, h)
  | fuel + 1, cls, f, items, h =>
    match items with
    | [] => (.ok (), h)
    | (k, v) :: rest =>
      if cls.coVarnames.contains k then
        match cls.annLookup k with
        | none => processHeap env fuel cls f rest h
        | some .dictAnn => processHeap env fuel cls f rest h
        | some (.classAnn c2) =>
          match v with
          | .href r =>
            match SuperFactory.createHeap env fuel (some c2) r none h with
            | (.error e, h2) => (.error e, h2)
            | (.ok newv, h2) =>
              processHeap env fuel cls f rest
                (writeHeap h2 f (hdictSet ((lookupHeap h2 f).getD []) k newv))
          | _ => processHeap env fuel cls f rest h
      else (.error (.unknownOption cls.name k), h)
end

theorem lookupHeap_alloc_lt (h : Heap) (e : List (String × HVal)) (a : Nat)
    (ha : a < h.next) : lookupHeap (allocHeap h e).1 a = lookupHeap h a := by
  unfold lookupHeap allocHeap
  simp only [List.find?]
  have : (h.next == a) = false := by
    simp only [beq_eq_false_iff_ne]
    omega
  rw [this]

theorem heapWF_alloc (h : Heap) (e : List (String × HVal)) (hwf : heapWF h) :
    heapWF (allocHeap h e).1 := by
  intro p hp
  rcases List.mem_cons.mp hp with rfl | hp'
  · simp [allocHeap]
  · have := hwf p hp'
    simp only [allocHeap]
    omega

theorem lookupHeap_write_ne (h : Heap) (f : Nat) (e : List (String × HVal))
    (a : Nat) (ha : a ≠ f) : lookupHeap (writeHeap h f e) a = lookupHeap h a := by
  unfold lookupHeap writeHeap
  simp only []
  induction h.mem with
  | nil => rfl
  | cons p t ih =>
    simp only [List.map_cons, List.find?]
    by_cases hpf : p.1 = f
    · have h1 : ((if p.1 = f then (f, e) else p).1 == a) = false := by
        rw [if_pos hpf]
        simp only [beq_eq_false_iff_ne]
        exact fun hfa => ha hfa.symm
      have h2 : (p.1 == a) = false := by
        simp only [beq_eq_false_iff_ne]
        rw [hpf]
        exact fun hfa => ha hfa.symm
      rw [h1, h2]
      exact ih
    · rw [if_neg hpf]
      by_cases hpa : p.1 = a
      · rw [show (p.1 == a) = true by simp [hpa]]
      · rw [show (p.1 == a) = false by simp [hpa]]
        exact ih

theorem heapWF_write (h : Heap) (f : Nat) (e : List (String × HVal))
    (hwf : heapWF h) : heapWF (writeHeap h f e) := by
  intro q hq
  rcases List.mem_map.mp hq with ⟨p, hp, hqe⟩
  by_cases hpf : p.1 = f
  · rw [if_pos hpf] at hqe
    have := hwf p hp
    rw [← hqe]
    simp only [writeHeap]
    omega
  · rw [if_neg hpf] at hqe
    rw [← hqe]
    exact hwf p hp

theorem heapFrame : ∀ fuel : Nat,
    (∀ (env : String → Option PyClass) inst dpRef lp h, heapWF h →
      heapWF (SuperFactory.createHeap env fuel inst dpRef lp h).2 ∧
      h.next ≤ (SuperFactory.createHeap env fuel inst dpRef lp h).2.next ∧
      ∀ a, a < h.next →
        lookupHeap (SuperFactory.createHeap env fuel inst dpRef lp h).2 a =
          lookupHeap h a) ∧
    (∀ (env : String → Option PyClass) fuel2, fuel2 = fuel → ∀ cls f lp h, heapWF h →
      heapWF (createHeapBody env fuel2 cls f lp h).2 ∧
      h.next ≤ (createHeapBody env fuel2 cls f lp h).2.next ∧
      ∀ a, a < h.next → a ≠ f →
        lookupHeap (createHeapBody env fuel2 cls f lp h).2 a = lookupHeap h a) ∧
    (∀ (env : String → Option PyClass) cls f items h, heapWF h →
      heapWF (processHeap env fuel cls f items h).2 ∧
      h.next ≤ (processHeap env fuel cls f items h).2.next ∧
      ∀ a, a < h.next → a ≠ f →
        lookupHeap (processHeap env fuel cls f items h).2 a = lookupHeap h a) := by
  intro fuel
  induction fuel with
  | zero =>
    refine ⟨?_, ?_, ?_⟩
    · intro env inst dpRef lp h hwf
      exact ⟨hwf, Nat.le_refl _, fun a _ => rfl⟩
    · intro env fuel2 hf2 cls f lp h hwf
      subst hf2
      exact ⟨hwf, Nat.le_refl _, fun a _ _ => rfl⟩
    · intro env cls f items h hwf
      exact ⟨hwf, Nat.le_refl _, fun a _ _ => rfl⟩
  | succ fuel ih =>
    obtain ⟨ihC, ihB, ihP⟩ := ih
    have ihB' := fun env => ihB env fuel rfl
    -- the body lemma at `fuel + 1`, proved from `processHeap` at `fuel`
    have bodyStep : ∀ (env : String → Option PyClass) cls f lp h, heapWF h →
        heapWF (createHeapBody env (fuel + 1) cls f lp h).2 ∧
        h.next ≤ (createHeapBody env (fuel + 1) cls f lp h).2.next ∧
        ∀ a, a < h.next → a ≠ f →
          lookupHeap (createHeapBody env (fuel + 1) cls f lp h).2 a =
            lookupHeap h a := by
      intro env cls f lp h hwf
      obtain ⟨hP1, hP2, hP3⟩ :=
        ihP env cls f ((lookupHeap h f).getD []) h hwf
      simp only [createHeapBody]
      cases hcall : processHeap env fuel cls f ((lookupHeap h f).getD []) h with
      | mk res h2 =>
        rw [hcall] at hP1 hP2 hP3
        cases res with
        | error e => exact ⟨hP1, hP2, hP3⟩
        | ok u => exact ⟨hP1, hP2, hP3⟩
    refine ⟨?_, ?_, ?_⟩
    · -- createHeap at fuel + 1
      intro env inst dpRef lp h hwf
      have hwf1 : heapWF (allocHeap h ((lookupHeap h dpRef).getD [])).1 :=
        heapWF_alloc h _ hwf
      have hnext1 : (allocHeap h ((lookupHeap h dpRef).getD [])).1.next = h.next + 1 :=
        rfl
      have hsnd : (allocHeap h ((lookupHeap h dpRef).getD [])).2 = h.next := rfl
      have hlook1 : ∀ a, a < h.next →
          lookupHeap (allocHeap h ((lookupHeap h dpRef).getD [])).1 a =
            lookupHeap h a :=
        fun a ha => lookupHeap_alloc_lt h _ a ha
      have hwf2 : heapWF (writeHeap (allocHeap h ((lookupHeap h dpRef).getD [])).1
          (allocHeap h ((lookupHeap h dpRef).getD [])).2
          (hdictRemove ((lookupHeap h dpRef).getD []) "type")) :=
        heapWF_write _ _ _ hwf1
      have hnext2 : (writeHeap (allocHeap h ((lookupHeap h dpRef).getD [])).1
          (allocHeap h ((lookupHeap h dpRef).getD [])).2
          (hdictRemove ((lookupHeap h dpRef).getD []) "type")).next = h.next + 1 :=
        rfl
      have hlook2 : ∀ a, a < h.next →
          lookupHeap (writeHeap (allocHeap h ((lookupHeap h dpRef).getD [])).1
            (allocHeap h ((lookupHeap h dpRef).getD [])).2
            (hdictRemove ((lookupHeap h dpRef).getD []) "type")) a =
            lookupHeap h a := by
        intro a ha
        rw [lookupHeap_write_ne _ _ _ a (by rw [hsnd]; omega), hlook1 a ha]
      have hbody : ∀ cls,
          heapWF (createHeapBody env fuel cls
            (allocHeap h ((lookupHeap h dpRef).getD [])).2 lp
            (writeHeap (allocHeap h ((lookupHeap h dpRef).getD [])).1
              (allocHeap h ((lookupHeap h dpRef).getD [])).2
              (hdictRemove ((lookupHeap h dpRef).getD []) "type"))).2 ∧
          h.next ≤ (createHeapBody env fuel cls
            (allocHeap h ((lookupHeap h dpRef).getD [])).2 lp
            (writeHeap (allocHeap h ((lookupHeap h dpRef).getD [])).1
              (allocHeap h ((lookupHeap h dpRef).getD [])).2
              (hdictRemove ((lookupHeap h dpRef).getD []) "type"))).2.next ∧
          ∀ a, a < h.next →
            lookupHeap (createHeapBody env fuel cls
              (allocHeap h ((lookupHeap h dpRef).getD [])).2 lp
              (writeHeap (allocHeap h ((lookupHeap h dpRef).getD [])).1
                (allocHeap h ((lookupHeap h dpRef).getD [])).2
                (hdictRemove ((lookupHeap h dpRef).getD []) "type"))).2 a =
              lookupHeap h a := by
        intro cls
        obtain ⟨hB1, hB2, hB3⟩ := ihB' env cls
          (allocHeap h ((lookupHeap h dpRef).getD [])).2 lp _ hwf2
        refine ⟨hB1, by rw [hnext2] at hB2; omega, ?_⟩
        intro a ha
        rw [hB3 a (by rw [hnext2]; omega) (by rw [hsnd]; omega), hlook2 a ha]
      have hbodyN : ∀ cls,
          heapWF (createHeapBody env fuel cls
            (allocHeap h ((lookupHeap h dpRef).getD [])).2 lp
            (allocHeap h ((lookupHeap h dpRef).getD [])).1).2 ∧
          h.next ≤ (createHeapBody env fuel cls
            (allocHeap h ((lookupHeap h dpRef).getD [])).2 lp
            (allocHeap h ((lookupHeap h dpRef).getD [])).1).2.next ∧
          ∀ a, a < h.next →
            lookupHeap (createHeapBody env fuel cls
              (allocHeap h ((lookupHeap h dpRef).getD [])).2 lp
              (allocHeap h ((lookupHeap h dpRef).getD [])).1).2 a =
              lookupHeap h a := by
        intro cls
        obtain ⟨hB1, hB2, hB3⟩ := ihB' env cls
          (allocHeap h ((lookupHeap h dpRef).getD [])).2 lp _ hwf1
        refine ⟨hB1, by rw [hnext1] at hB2; omega, ?_⟩
        intro a ha
        rw [hB3 a (by rw [hnext1]; omega) (by rw [hsnd]; omega), hlook1 a ha]
      simp only [SuperFactory.createHeap]
      repeat' split
      all_goals first
        | exact hbody _
        | exact hbodyN _
        | exact ⟨hwf2, by rw [hnext2]; omega, hlook2⟩
        | exact ⟨hwf1, by rw [hnext1]; omega, hlook1⟩
    · -- createHeapBody at fuel + 1
      intro env fuel2 hf2 cls f lp h hwf
      subst hf2
      exact bodyStep env cls f lp h hwf
    · -- processHeap at fuel + 1
      intro env cls f items h hwf
      cases items with
      | nil => exact ⟨hwf, Nat.le_refl _, fun a _ _ => rfl⟩
      | cons kv rest =>
        obtain ⟨k, v⟩ := kv
        simp only [processHeap]
        by_cases hc : cls.coVarnames.contains k = true
        · rw [if_pos hc]
          split
          · exact ihP env cls f rest h hwf
          · exact ihP env cls f rest h hwf
          · rename_i c2 hann
            split
            · rename_i r
              split
              · rename_i e h2 heq
                obtain ⟨hC1, hC2, hC3⟩ := ihC env (some c2) r none h hwf
                have hC1b : heapWF h2 := by rw [heq] at hC1; exact hC1
                have hC2b : h.next ≤ h2.next := by rw [heq] at hC2; exact hC2
                have hC3b : ∀ a, a < h.next → lookupHeap h2 a = lookupHeap h a := by
                  rw [heq] at hC3
                  exact hC3
                exact ⟨hC1b, hC2b, fun a ha _ => hC3b a ha⟩
              · rename_i newv h2 heq
                obtain ⟨hC1, hC2, hC3⟩ := ihC env (some c2) r none h hwf
                have hC1b : heapWF h2 := by rw [heq] at hC1; exact hC1
                have hC2b : h.next ≤ h2.next := by rw [heq] at hC2; exact hC2
                have hC3b : ∀ a, a < h.next → lookupHeap h2 a = lookupHeap h a := by
                  rw [heq] at hC3
                  exact hC3
                have hwf3 : heapWF (writeHeap h2 f
                    (hdictSet ((lookupHeap h2 f).getD []) k newv)) :=
                  heapWF_write h2 f _ hC1b
                obtain ⟨hR1, hR2, hR3⟩ := ihP env cls f rest
                  (writeHeap h2 f (hdictSet ((lookupHeap h2 f).getD []) k newv)) hwf3
                have hnw : (writeHeap h2 f
                    (hdictSet ((lookupHeap h2 f).getD []) k newv)).next = h2.next :=
                  rfl
                refine ⟨hR1, by omega, ?_⟩
                intro a ha haf
                rw [hR3 a (by omega) haf, lookupHeap_write_ne _ _ _ a haf,
                  hC3b a ha]
            · exact ihP env cls f rest h hwf
        · rw [if_neg hc]
          exact ⟨hwf, Nat.le_refl _, fun a _ _ => rfl⟩

/-- C10: `SuperFactory.create` never mutates the caller's parameter map.
Whether it returns or raises, every dict object that existed before the call —
the caller's map, its `"type"` discriminator entry, and every nested dict —
still holds exactly its original entries: `create` pops and reassigns only on
the fresh copy it allocates, and the recursive calls for nested maps copy in
the same way. -/
theorem c10_create_no_mutation (env : String → Option PyClass) (fuel : Nat)
    (inst : Option PyClass) (dpRef : Nat) (lp : Option (List (String × HVal)))
    (h : Heap) (hwf : heapWF h) :
    ∀ a, a < h.next →
      lookupHeap (SuperFactory.createHeap env fuel inst dpRef lp h).2 a =
        lookupHeap h a :=
  ((heapFrame fuel).1 env inst dpRef lp h hwf).2.2

/-- Nested configuration class for the C10 witness. -/
def clsSubCfg : PyClass := .mk "SubCfg" [] ["self", "y"] []

/-- Concrete class for the C10 witness, with a nested-object parameter. -/
def clsFooWidget : PyClass :=
  .mk "FooWidget" [] ["self", "x", "sub"] [("sub", .classAnn clsSubCfg)]

/-- Abstract base for the C10 witness. -/
def clsAbstractWidget : PyClass := .mk "AbstractWidget" [clsFooWidget] ["self"] []

/-- The C10 witness heap: address 0 holds the caller's parameter map
`{"type": "foo", "x": 1, "sub": <ref 1>}` and address 1 its nested map
`{"y": 2}`. -/
def wHeap : Heap :=
  Heap.mk 2
    [(0, [("type", .hstr "foo"), ("x", .hint 1), ("sub", .href 1)]),
     (1, [("y", .hint 2)])]

/-- Witness for `c10_create_no_mutation`: after a successful construction that
resolves the `"type"` discriminator and recursively materializes the nested
map, both the caller's map (with its `"type"` entry) and the nested map are
unchanged. -/
theorem c10_create_no_mutation_witness :
    heapWF wHeap ∧
      lookupHeap (SuperFactory.createHeap envEmpty 10 (some clsAbstractWidget)
          0 none wHeap).2 0 = lookupHeap wHeap 0 ∧
      lookupHeap (SuperFactory.createHeap envEmpty 10 (some clsAbstractWidget)
          0 none wHeap).2 1 = lookupHeap wHeap 1 ∧
      (SuperFactory.createHeap envEmpty 10 (some clsAbstractWidget)
          0 none wHeap).1 =
        .ok (.hinst "FooWidget"
          [("x", .hint 1), ("sub", .hinst "SubCfg" [("y", .hint 2)])]) :=
  ⟨by decide,
    c10_create_no_mutation envEmpty 10 (some clsAbstractWidget) 0 none wHeap
      (by decide) 0 (by decide),
    c10_create_no_mutation envEmpty 10 (some clsAbstractWidget) 0 none wHeap
      (by decide) 1 (by decide),
    by rfl⟩
